import Mathlib

set_option maxRecDepth 20000

/-!
Shallow embedding of `AzureRepo.py` (MunkiAzurePlugin): the catalog-building
engine (`makecatalogs`), metadata loading/sanitizing (`_process_pkgsinfo`),
icon hashing (`_process_icon_hash`), payload verification (`_verify_pkginfo`),
the repo item listing (`itemlist`) and the blob-store operations they use.

Conventions of the embedding:
* Python plist values are modelled by the inductive `PValue`; a pkginfo
  dictionary is an association list `PkgInfo` with unique keys and
  insertion-ordered iteration, matching Python `dict` semantics.
* Python's mutable, shared `errors` list is translated in accumulator style:
  each function returns the list of messages it appends, and the caller
  concatenates them in program order.  Nothing in the source ever reads the
  `errors` list, so this is an observationally faithful translation.
* Raising an exception is modelled with `Except PyError`; calling the
  absent `output_fn` (`None` in Python) without an `if output_fn:` guard
  raises `TypeError`, modelled by `outCall`.
* Blob contents are modelled by `Bytes`; `BlobContent.err` models a blob
  whose download raises (the message is the exception text).
-/

inductive PValue where
  | str : String → PValue
  | int : Int → PValue
  | bool : Bool → PValue
  | list : List PValue → PValue
  | dict : List (String × PValue) → PValue

abbrev PkgInfo := List (String × PValue)

mutual

def PValue.decEq : (a b : PValue) → Decidable (a = b)
  | .str a, .str b =>
    match String.decEq a b with
    | .isTrue h => .isTrue (congrArg PValue.str h)
    | .isFalse h => .isFalse (fun hh => h (by injection hh))
  | .int a, .int b =>
    if h : a = b then .isTrue (congrArg PValue.int h)
    else .isFalse (fun hh => h (by injection hh))
  | .bool a, .bool b =>
    if h : a = b then .isTrue (congrArg PValue.bool h)
    else .isFalse (fun hh => h (by injection hh))
  | .list a, .list b =>
    match PValue.decEqList a b with
    | .isTrue h => .isTrue (congrArg PValue.list h)
    | .isFalse h => .isFalse (fun hh => h (by injection hh))
  | .dict a, .dict b =>
    match PValue.decEqDict a b with
    | .isTrue h => .isTrue (congrArg PValue.dict h)
    | .isFalse h => .isFalse (fun hh => h (by injection hh))
  | .str _, .int _ => .isFalse (fun h => PValue.noConfusion h)
  | .str _, .bool _ => .isFalse (fun h => PValue.noConfusion h)
  | .str _, .list _ => .isFalse (fun h => PValue.noConfusion h)
  | .str _, .dict _ => .isFalse (fun h => PValue.noConfusion h)
  | .int _, .str _ => .isFalse (fun h => PValue.noConfusion h)
  | .int _, .bool _ => .isFalse (fun h => PValue.noConfusion h)
  | .int _, .list _ => .isFalse (fun h => PValue.noConfusion h)
  | .int _, .dict _ => .isFalse (fun h => PValue.noConfusion h)
  | .bool _, .str _ => .isFalse (fun h => PValue.noConfusion h)
  | .bool _, .int _ => .isFalse (fun h => PValue.noConfusion h)
  | .bool _, .list _ => .isFalse (fun h => PValue.noConfusion h)
  | .bool _, .dict _ => .isFalse (fun h => PValue.noConfusion h)
  | .list _, .str _ => .isFalse (fun h => PValue.noConfusion h)
  | .list _, .int _ => .isFalse (fun h => PValue.noConfusion h)
  | .list _, .bool _ => .isFalse (fun h => PValue.noConfusion h)
  | .list _, .dict _ => .isFalse (fun h => PValue.noConfusion h)
  | .dict _, .str _ => .isFalse (fun h => PValue.noConfusion h)
  | .dict _, .int _ => .isFalse (fun h => PValue.noConfusion h)
  | .dict _, .bool _ => .isFalse (fun h => PValue.noConfusion h)
  | .dict _, .list _ => .isFalse (fun h => PValue.noConfusion h)

def PValue.decEqList : (a b : List PValue) → Decidable (a = b)
  | [], [] => .isTrue rfl
  | [], _ :: _ => .isFalse (fun h => List.noConfusion h)
  | _ :: _, [] => .isFalse (fun h => List.noConfusion h)
  | x :: xs, y :: ys =>
    match PValue.decEq x y, PValue.decEqList xs ys with
    | .isTrue h1, .isTrue h2 => .isTrue (by rw [h1, h2])
    | .isFalse h1, _ => .isFalse (fun h => by injection h with h1h h2h; exact h1 h1h)
    | _, .isFalse h2 => .isFalse (fun h => by injection h with h1h h2h; exact h2 h2h)

def PValue.decEqDict : (a b : List (String × PValue)) → Decidable (a = b)
  | [], [] => .isTrue rfl
  | [], _ :: _ => .isFalse (fun h => List.noConfusion h)
  | _ :: _, [] => .isFalse (fun h => List.noConfusion h)
  | (k1, v1) :: xs, (k2, v2) :: ys =>
    match String.decEq k1 k2, PValue.decEq v1 v2, PValue.decEqDict xs ys with
    | .isTrue hk, .isTrue hv, .isTrue ht => .isTrue (by rw [hk, hv, ht])
    | .isFalse hk, _, _ =>
      .isFalse (fun h => by injection h with h1h h2h; exact hk (congrArg Prod.fst h1h))
    | _, .isFalse hv, _ =>
      .isFalse (fun h => by injection h with h1h h2h; exact hv (congrArg Prod.snd h1h))
    | _, _, .isFalse ht => .isFalse (fun h => by injection h with h1h h2h; exact ht h2h)

end

instance : DecidableEq PValue := PValue.decEq

/-- Python truthiness of a plist value (`if v:`). -/
def truthy : PValue → Bool
  | .str s => s != ""
  | .int n => n != 0
  | .bool b => b
  | .list l => !l.isEmpty
  | .dict d => !d.isEmpty

/-- Python truthiness of `d.get(k)` style optional values. -/
def truthyOpt : Option PValue → Bool
  | none => false
  | some v => truthy v

/-- Python `d.get(k)` on a dict: value of the (unique) key, if present. -/
def lookupKey (d : PkgInfo) (k : String) : Option PValue :=
  (d.find? (fun kv => kv.1 == k)).map (fun kv => kv.2)

/-- Python `k in d` on a dict: key membership. -/
def hasKey (d : PkgInfo) (k : String) : Bool :=
  d.any (fun kv => kv.1 == k)

/-- Python `del d[k]` on a dict. -/
def removeKey (d : PkgInfo) (k : String) : PkgInfo :=
  d.filter (fun kv => !(kv.1 == k))

/-- Python `v in listOfStrings` where `v` is a plist value: only an equal
string matches (`True == 1` subtleties do not arise for string lists). -/
def isStrIn (v : Option PValue) (ss : List String) : Bool :=
  match v with
  | some (.str s) => ss.contains s
  | _ => false

/-- Model of Python `str.lower()` (ASCII case folding, which covers the
path strings this repo compares).  `String.toLower` itself is defined by
well-founded recursion in core and does not reduce in the kernel, so the
embedding uses this structurally recursive equivalent. -/
def pyLower (s : String) : String :=
  String.mk (s.data.map Char.toLower)

/-- Kernel-reducible equivalent of `String.startsWith` (whose core
implementation uses byte-position loops that do not reduce). -/
def strStartsWith (s p : String) : Bool :=
  p.data.isPrefixOf s.data

/-- Kernel-reducible equivalent of `String.endsWith`. -/
def strEndsWith (s p : String) : Bool :=
  p.data.isSuffixOf s.data

/-- Kernel-reducible equivalent of `String.drop` (drops characters). -/
def strDrop (s : String) (n : Nat) : String :=
  String.mk (s.data.drop n)

/-- Model of `os.path.basename`: the part after the final slash. -/
def basename (s : String) : String :=
  String.mk ((s.data.reverse.takeWhile (fun c => !(c == '/'))).reverse)

/-- Model of `os.path.join(a, b)` for POSIX paths: a second component that
starts with a slash replaces the first. -/
def pyJoin (a b : String) : String :=
  if strStartsWith b "/" then b else a ++ "/" ++ b

/-- Model of `os.path.relpath(s, pre)` for the shapes used by `itemlist`:
stripping a prefix directory.  Names that do not sit under `pre` climb out
with a `..` component, as `os.path.relpath` does for single-component
prefixes. -/
def relpath (s pre : String) : String :=
  if strEndsWith pre "/" then
    if strStartsWith s pre then strDrop s pre.length else "../" ++ s
  else if s == pre then "."
  else if strStartsWith s (pre ++ "/") then strDrop s (pre.length + 1)
  else "../" ++ s

/-! Warning message strings of `AzureRepo.py` (format strings translated to
concatenation; Python `repr` quoting of list elements is omitted). -/

def msgMissingName (ref : String) : String :=
  "WARNING: " ++ ref ++ " is missing name"

def msgMissingInstallerLoc (ref : String) : String :=
  "WARNING: " ++ ref ++ " is missing installer_item_location"

def msgInvalidInstallerLoc (ref : String) : String :=
  "WARNING: invalid installer_item_location in " ++ ref

def msgInstallerCase (ref loc repoPkg : String) : String :=
  "WARNING: " ++ ref ++ " refers to installer item: " ++ loc ++
  ". The pathname of the item in the repo has different case: " ++ repoPkg ++
  ". This may cause issues depending on the case-sensitivity of the underlying filesystem."

def msgMissingInstallerItem (ref loc : String) : String :=
  "WARNING: " ++ ref ++ " refers to missing installer item: " ++ loc

def msgMissingUninstallerLoc (ref : String) : String :=
  "WARNING: " ++ ref ++ " is missing uninstaller_item_location"

def msgInvalidUninstallerLoc (ref : String) : String :=
  "WARNING: invalid uninstaller_item_location in " ++ ref

def msgUninstallerCase (ref loc repoPkg : String) : String :=
  "WARNING: " ++ ref ++ " refers to uninstaller item: " ++ loc ++
  ". The pathname of the item in the repo has different case: " ++ repoPkg ++
  ". This may cause issues depending on the case-sensitivity of the underlying filesystem."

def msgMissingUninstallerItem (ref loc : String) : String :=
  "WARNING: " ++ ref ++ " refers to missing uninstaller item: " ++ loc

def msgEmptyCatalogsArray (ref : String) : String :=
  "WARNING: " ++ ref ++ " has an empty catalogs array!"

def msgUnexpected (ref err : String) : String :=
  "Unexpected error for " ++ ref ++ ": " ++ err

/-- Installer types with no associated installer item. -/
def exemptTypes : List String := ["nopkg", "apple_update_metadata"]

/-- The uninstaller half of `_verify_pkginfo` (source lines 214-257):
the `AdobeCCPUninstaller` requirement, then—if `uninstaller_item_location`
is present—the existence check against `pkgs_list` using the path
`os.path.join("pkgs", location)`. -/
def uninstallerCheck (ref : String) (pkginfo : PkgInfo) (pkgs_list : List String) :
    Bool × List String :=
  if isStrIn (lookupKey pkginfo "uninstall_method") ["AdobeCCPUninstaller"] &&
      !hasKey pkginfo "uninstaller_item_location" then
    (false, [msgMissingUninstallerLoc ref])
  else if hasKey pkginfo "uninstaller_item_location" then
    match lookupKey pkginfo "uninstaller_item_location" with
    | some (.str uloc) =>
      let upath := pyJoin "pkgs" uloc
      if pkgs_list.contains upath then (true, [])
      else
        match pkgs_list.find? (fun p => pyLower upath == pyLower p) with
        | some p => (true, [msgUninstallerCase ref uloc p])
        | none => (false, [msgMissingUninstallerItem ref uloc])
    | _ => (false, [msgInvalidUninstallerLoc ref])
  else (true, [])

/-- Model of `AzureRepo._verify_pkginfo` (source lines 167-257).  Returns
the boolean result together with the warnings appended to `errors`, in
order. -/
def verify_pkginfo (ref : String) (pkginfo : PkgInfo) (pkgs_list : List String) :
    Bool × List String :=
  if isStrIn (lookupKey pkginfo "installer_type") exemptTypes then (true, [])
  else if truthyOpt (lookupKey pkginfo "PackageCompleteURL") ||
      truthyOpt (lookupKey pkginfo "PackageURL") then (true, [])
  else
    match lookupKey pkginfo "installer_item_location" with
    | none => (false, [msgMissingInstallerLoc ref])
    | some v =>
      match v with
      | .str loc =>
        -- installeritempath = os.path.join(loc) = loc
        if pkgs_list.contains loc then uninstallerCheck ref pkginfo pkgs_list
        else
          match pkgs_list.find? (fun p => pyLower loc == pyLower p) with
          | some p =>
            let u := uninstallerCheck ref pkginfo pkgs_list
            (u.1, msgInstallerCase ref loc p :: u.2)
          | none => (false, [msgMissingInstallerItem ref loc])
      | _ => (false, [msgInvalidInstallerLoc ref])

/-- Python exception kinds raised by the modelled code paths. -/
inductive PyError where
  | typeError
  | attributeError
  | makeCatalogsError
deriving DecidableEq

/-- The `options` object consumed by `makecatalogs`. -/
structure Options where
  skip_payload_check : Bool
  force : Bool
deriving DecidableEq

/-- Models calling `output_fn(...)` WITHOUT an `if output_fn:` guard:
when the caller passed `output_fn=None`, calling it raises `TypeError`. -/
def outCall (output : Bool) : Except PyError Unit :=
  if output then .ok () else .error .typeError

/-- Blob byte strings.  `raw` is uninterpreted content (not a plist);
`plist` is the output of `writePlistToString` on a value. -/
inductive Bytes where
  | raw : Nat → Bytes
  | plist : PValue → Bytes
deriving DecidableEq

/-- Model of `readPlistFromString`: succeeds exactly on serialized plists. -/
def readPlistFromString : Bytes → Option PValue
  | .raw _ => none
  | .plist v => some v

mutual

def pvEncode : PValue → String
  | .str s => "s:" ++ s
  | .int n => "i:" ++ toString n
  | .bool b => "b:" ++ toString b
  | .list xs => "l[" ++ pvEncodeList xs ++ "]"
  | .dict xs => "d[" ++ pvEncodeDict xs ++ "]"

def pvEncodeList : List PValue → String
  | [] => ""
  | x :: xs => pvEncode x ++ "," ++ pvEncodeList xs

def pvEncodeDict : List (String × PValue) → String
  | [] => ""
  | kv :: xs => kv.1 ++ "=" ++ pvEncode kv.2 ++ ";" ++ pvEncodeDict xs

end

/-- Model of `hashlib.sha256(data).hexdigest()`: an abstract deterministic
digest of the content.  No claim inspects digest values, only that equal
content gives equal digests. -/
def sha256hex : Bytes → String
  | .raw n => "raw-digest-" ++ toString n
  | .plist v => "plist-digest-" ++ pvEncode v

/-- A stored blob's downloadable content: `ok` downloads the bytes,
`err` models a download that raises (with the exception text). -/
inductive BlobContent where
  | ok : Bytes → BlobContent
  | err : String → BlobContent
deriving DecidableEq

/-- The Azure container: named blobs, listed in a stable (storage) order. -/
structure Store where
  blobs : List (String × BlobContent)
deriving DecidableEq

/-- Model of `list_blobs(name_starts_with=pre)`: blobs whose name starts
with the prefix, in storage order. -/
def listBlobs (s : Store) (pre : String) : List (String × BlobContent) :=
  s.blobs.filter (fun e => strStartsWith e.1 pre)

/-- Model of `upload_blob(name, data, overwrite=True)`: replace the content
of an existing name in place, otherwise append the new blob. -/
def putBlob (s : Store) (n : String) (b : Bytes) : Store :=
  if s.blobs.any (fun e => e.1 == n) then
    ⟨s.blobs.map (fun e => if e.1 == n then (n, BlobContent.ok b) else e)⟩
  else ⟨s.blobs ++ [(n, BlobContent.ok b)]⟩

/-- Model of `delete_blob(name)`: removes the blob if present; deleting a
missing name is a non-fatal no-op (`ResourceNotFoundError` is caught). -/
def deleteBlob (s : Store) (n : String) : Store :=
  ⟨s.blobs.filter (fun e => !(e.1 == n))⟩

/-- Content of the named blob, if present. -/
def blobLookup (s : Store) (n : String) : Option BlobContent :=
  (s.blobs.find? (fun e => e.1 == n)).map (fun e => e.2)

/-- Model of `AzureRepo.itemlist(kind)` (source lines 259-276): list blob
names with the kind prefix (with `pkgs` special-cased to `pkgs/`) and
return each name relative to the prefix. -/
def itemlist (s : Store) (kind : String) : List String :=
  let k := if kind == "pkgs" then "pkgs/" else kind
  ((s.blobs.map (fun e => e.1)).filter (fun n => strStartsWith n k)).map
    (fun n => relpath n k)

/-- A (name, pkginfo, error) triple produced by `_process_pkgsinfo`. -/
abbrev PTuple := Option String × Option PkgInfo × Option String

/-- Model of `AzureRepo._process_pkgsinfo` (source lines 122-146): fetch and
parse the blob (any failure is caught and reported as an error string),
warn when `name` is missing, then sanitize: drop a truthy `notes` value and
every key starting with an underscore.  A parsed plist whose root is not a
dictionary escapes the `try` block and raises (`.get` on a non-dict raises
`AttributeError`; `in` on a number raises `TypeError`). -/
def process_pkgsinfo (blob : String × BlobContent) : Except PyError PTuple :=
  let ref := basename blob.1
  match blob.2 with
  | .err e => .ok (none, none, some (msgUnexpected ref e))
  | .ok b =>
    match readPlistFromString b with
    | none => .ok (none, none, some (msgUnexpected ref "not a valid plist"))
    | some (.dict d) =>
      let nameErr := if hasKey d "name" then none else some (msgMissingName ref)
      let d1 := if truthyOpt (lookupKey d "notes") then removeKey d "notes" else d
      let d2 := d1.filter (fun kv => !(strStartsWith kv.1 "_"))
      .ok (some ref, some d2, nameErr)
    | some (.str _) => .error .attributeError
    | some (.list _) => .error .attributeError
    | some (.int _) => .error .typeError
    | some (.bool _) => .error .typeError

/-- Model of `pool.map(_process_pkgsinfo, blob_list)`: results in input
order; the first raised exception propagates out of the map. -/
def processAll : List (String × BlobContent) → Except PyError (List PTuple)
  | [] => .ok []
  | b :: bs =>
    match process_pkgsinfo b with
    | .error e => .error e
    | .ok t =>
      match processAll bs with
      | .error e => .error e
      | .ok ts => .ok (t :: ts)

/-- Model of `AzureRepo._process_icon_hash` (source lines 148-165): skip the
reserved manifest basename; on download failure return the NAME, no hash,
and an error string; on success return the name and the digest. -/
def process_icon_hash (blob : String × BlobContent) :
    Option String × Option String × Option String :=
  let name := basename blob.1
  if name == "_icon_hashes.plist" then (none, none, none)
  else
    match blob.2 with
    | .err e => (some name, none, some (msgUnexpected name e))
    | .ok b => (some name, some (sha256hex b), none)

/-- Python `if error:` on an optional string: truthy when present and
non-empty; yields the messages appended to `errors`. -/
def errMsgList : Option String → List String
  | some e => if e != "" then [e] else []
  | none => []

/-- Python dict insert with overwrite (`icons[name] = icon_hash`). -/
def dictInsert (m : List (String × Option String)) (k : String) (v : Option String) :
    List (String × Option String) :=
  if m.any (fun e => e.1 == k) then
    m.map (fun e => if e.1 == k then (k, v) else e)
  else m ++ [(k, v)]

/-- The icon-collection loop of `makecatalogs` (source lines 363-367):
`if error: errors.append(error)` and `if name: icons[name] = icon_hash`.
Note the hash may be `None` for a failed download; the entry is inserted
anyway because only NAME truthiness is checked. -/
def collectIcons (acc : List (String × Option String)) (errs : List String) :
    List (Option String × Option String × Option String) →
    List (String × Option String) × List String
  | [] => (acc, errs)
  | (name?, hash?, err?) :: rest =>
    let errs1 := errs ++ errMsgList err?
    match name? with
    | some n =>
      if n != "" then collectIcons (dictInsert acc n hash?) errs1 rest
      else collectIcons acc errs1 rest
    | none => collectIcons acc errs1 rest

/-- The in-memory catalogs dictionary: insertion-ordered keys (Python dict
keys may be arbitrary values when a record declares a non-string catalog
name) mapping to record sequences. -/
abbrev Catalogs := List (PValue × List PkgInfo)

/-- Python `key in catalogs`. -/
def catMember (cats : Catalogs) (k : PValue) : Bool :=
  cats.any (fun e => e.1 == k)

/-- Python `catalogs[k].append(p)` for a key that is present (`all` is
always initialized before any append). -/
def catAppend (cats : Catalogs) (k : PValue) (p : PkgInfo) : Catalogs :=
  cats.map (fun e => if e.1 == k then (e.1, e.2 ++ [p]) else e)

/-- Source lines 419-421: create the catalog with an empty list when absent,
then append. -/
def catAdd (cats : Catalogs) (k : PValue) (p : PkgInfo) : Catalogs :=
  if catMember cats k then catAppend cats k p
  else cats ++ [(k, [p])]

/-- Python iteration over `pkginfo.get("catalogs", [])`: lists iterate
their elements, dicts their keys, strings their characters; iterating a
number/bool raises `TypeError`. -/
def pyIter : Option PValue → Except PyError (List PValue)
  | none => .ok []
  | some (.list xs) => .ok xs
  | some (.dict xs) => .ok (xs.map (fun kv => PValue.str kv.1))
  | some (.str s) => .ok (s.data.map (fun c => PValue.str (String.mk [c])))
  | some (.int _) => .error .typeError
  | some (.bool _) => .error .typeError

/-- Python `key.lower()` on a dict key: raises `AttributeError` on a
non-string key. -/
def pyLowerKey : PValue → Except PyError String
  | .str s => .ok (pyLower s)
  | _ => .error .attributeError

def pyLowerKeys : List PValue → Except PyError (List String)
  | [] => .ok []
  | k :: ks =>
    match pyLowerKey k with
    | .error e => .error e
    | .ok l =>
      match pyLowerKeys ks with
      | .error e => .error e
      | .ok ls => .ok (l :: ls)

/-- Source lines 427-429: for each key of `catalogs`, compare its
lower-cased form against the lower-cased other keys; collect the keys that
collide case-insensitively. -/
def scanDupAux (allKeys : List PValue) : List PValue → Except PyError (List PValue)
  | [] => .ok []
  | k :: ks =>
    match pyLowerKey k with
    | .error e => .error e
    | .ok kl =>
      match pyLowerKeys (allKeys.filter (fun i => !(i == k))) with
      | .error e => .error e
      | .ok others =>
        match scanDupAux allKeys ks with
        | .error e => .error e
        | .ok rest => .ok (if others.contains kl then k :: rest else rest)

def scanDup (keys : List PValue) : Except PyError (List PValue) :=
  scanDupAux keys keys

/-- Rendering of the Python list of duplicate catalog names interpolated
into the duplicate-name warning (repr quoting omitted). -/
def pyReprKeys (ks : List PValue) : String :=
  "[" ++ String.intercalate ", " (ks.map (fun k =>
    match k with
    | .str s => s
    | _ => "?")) ++ "]"

def msgDuplicateCatalogs (dups : List PValue) : String :=
  "WARNING: There are catalogs with names that differ only by case. " ++
  "This may cause issues depending on the case-sensitivity of the " ++
  "underlying filesystem: " ++ pyReprKeys dups

/-- Source lines 413-423: the `for catalogname in pkginfo.get("catalogs", [])`
loop: warn and skip falsy names, otherwise insert the record into that
catalog (the per-name progress output is guarded, so it never raises). -/
def addToCatalogs (ref : String) (d : PkgInfo) :
    List PValue → Catalogs → Catalogs × List String
  | [], cats => (cats, [])
  | v :: vs, cats =>
    if !truthy v then
      let r := addToCatalogs ref d vs cats
      (r.1, msgEmptyCatalogsArray ref :: r.2)
    else addToCatalogs ref d vs (catAdd cats v d)

/-- Processing of one included record (source lines 410-434): the unguarded
`output_fn("Adding ... to all...")` call, the append to `all`, the declared
catalog memberships, then the per-record duplicate-name scan and its
warning. -/
def procRecord (output : Bool) (ref : String) (d : PkgInfo) (cats : Catalogs) :
    Except PyError (Catalogs × List String) :=
  if output = false then .error .typeError
  else
    let cats1 := catAppend cats (PValue.str "all") d
    match pyIter (lookupKey d "catalogs") with
    | .error e => .error e
    | .ok names =>
      let r := addToCatalogs ref d names cats1
      match scanDup (r.1.map (fun e => e.1)) with
      | .error e => .error e
      | .ok dups =>
        .ok (r.1, r.2 ++ (if dups.isEmpty then [] else [msgDuplicateCatalogs dups]))

/-- Processing of one `(pkginfo_ref, pkginfo, error)` tuple of the main
loop (source lines 397-434): append a truthy error, skip falsy pkginfo;
otherwise verify (the `Verifying`/`Skipping` progress calls are unguarded,
so they raise `TypeError` when `output_fn` is `None`), skip unverified
records unless forced, and include the record via `procRecord`. -/
def procHead (opts : Options) (output : Bool) (pkgs_list : List String)
    (t : PTuple) (cats : Catalogs) : Except PyError (Catalogs × List String) :=
  let errs0 := errMsgList t.2.2
  match t.2.1 with
  | none => .ok (cats, errs0)
  | some d =>
    if d.isEmpty then .ok (cats, errs0)
    else
      let ref := (t.1).getD ""
      if opts.skip_payload_check then
        match procRecord output ref d cats with
        | .error e => .error e
        | .ok r => .ok (r.1, errs0 ++ r.2)
      else if output = false then .error .typeError
      else
        let vr := verify_pkginfo ref d pkgs_list
        if !vr.1 && !opts.force then
          -- the unguarded Skipping call cannot raise here: output is true
          .ok (cats, errs0 ++ vr.2)
        else
          match procRecord output ref d cats with
          | .error e => .error e
          | .ok r => .ok (r.1, errs0 ++ vr.2 ++ r.2)

/-- The main per-tuple loop of `makecatalogs` (source lines 397-434). -/
def procLoop (opts : Options) (output : Bool) (pkgs_list : List String) :
    List PTuple → Catalogs → Except PyError (Catalogs × List String)
  | [], cats => .ok (cats, [])
  | t :: rest, cats =>
    match procHead opts output pkgs_list t cats with
    | .error e => .error e
    | .ok r =>
      match procLoop opts output pkgs_list rest r.1 with
      | .error e => .error e
      | .ok rr => .ok (rr.1, r.2 ++ rr.2)

/-- Serialization of a catalog (a plist array of record dicts). -/
def serializeCatalog (ps : List PkgInfo) : Bytes :=
  Bytes.plist (PValue.list (ps.map PValue.dict))

/-- Model of the Python test `catalogs[key] != ""` (source line 453): the
value is a LIST, and in Python a list never equals a string, so the test is
true for every catalog, including empty ones. -/
def pyNeqEmptyString (_ : List PkgInfo) : Bool := true

def msgEmptyCatalog (key : String) : String :=
  "WARNING: Did not create catalog " ++ key ++ " because it is empty"

/-- The delete loop of `makecatalogs` (source lines 441-448): the
`Deleting ...` progress call is unguarded (raises when `output_fn` is
`None`); `self.delete` swallows not-found errors. -/
def deleteLoop (output : Bool) (s : Store) : List String → Except PyError Store
  | [] => .ok s
  | n :: ns =>
    if output = false then .error .typeError
    else deleteLoop output (deleteBlob s (pyJoin "catalogs" n)) ns

/-- The write loop of `makecatalogs` (source lines 451-464):
`os.path.join("catalogs", key)` raises `TypeError` on a non-string key;
the emptiness test compares a list against `""` and therefore always
writes; the `Created ...` progress call is guarded. -/
def writeLoop (output : Bool) (s : Store) :
    Catalogs → Except PyError (Store × List String)
  | [] => .ok (s, [])
  | (k, ps) :: rest =>
    match k with
    | .str key =>
      if pyNeqEmptyString ps then
        match writeLoop output (putBlob s (pyJoin "catalogs" key) (serializeCatalog ps)) rest with
        | .error e => .error e
        | .ok r => .ok r
      else
        match writeLoop output s rest with
        | .error e => .error e
        | .ok r => .ok (r.1, msgEmptyCatalog key :: r.2)
    | _ => .error .typeError

def seqIcons : List (String × Option String) → Option (List (String × String))
  | [] => some []
  | (k, some v) :: rest => (seqIcons rest).map (fun l => (k, v) :: l)
  | (_, none) :: _ => none

/-- Model of `writePlistToString(icons)`: a `None` value (a failed icon
hash) is not plist-serializable and raises `TypeError`. -/
def serializeIcons (m : List (String × Option String)) : Except PyError Bytes :=
  match seqIcons m with
  | some pairs => .ok (Bytes.plist (PValue.dict (pairs.map (fun kv => (kv.1, PValue.str kv.2)))))
  | none => .error .typeError

/-- The catalog-computation front of `makecatalogs`: list the pkgsinfo
blobs, load them (a raised worker exception becomes `MakeCatalogsError`),
and run the main loop against the pkgs payload list, starting from the
catalogs dict initialized with an empty `all`. -/
def buildCatalogs (s : Store) (opts : Options) (output : Bool) :
    Except PyError (Catalogs × List String) :=
  match processAll (listBlobs s "pkgsinfo") with
  | .error _ => .error .makeCatalogsError
  | .ok tuples =>
    procLoop opts output (itemlist s "pkgs") tuples [(PValue.str "all", [])]

/-- The stale catalogs selected for deletion (source lines 441-442). -/
def catalogDeletionList (s : Store) (cats : Catalogs) : List String :=
  (itemlist s "catalogs").filter (fun n => !(catMember cats (PValue.str n)))

/-- The icon-hashing front of `makecatalogs` (source lines 346-367): list
the icon blobs, hash them on the pool, and collect the name/hash pairs and
errors. -/
def iconsStage (s : Store) : List (String × Option String) × List String :=
  collectIcons [] [] ((listBlobs s "icons").map process_icon_hash)

/-- Model of `AzureRepo.makecatalogs` (source lines 342-478): hash icons,
load and verify pkgsinfo records, aggregate catalogs, delete stale
catalogs, write every catalog, then write the icon-hash manifest (whose
`Created` progress call is unguarded).  Returns the final store and the
accumulated error report. -/
def makecatalogs (s : Store) (opts : Options) (output : Bool) :
    Except PyError (Store × List String) :=
  let iconsErrs := iconsStage s
  let icons := iconsErrs.1
  match buildCatalogs s opts output with
  | .error e => .error e
  | .ok cr =>
    let cats := cr.1
    match deleteLoop output s (catalogDeletionList s cats) with
    | .error e => .error e
    | .ok s1 =>
      match writeLoop output s1 cats with
      | .error e => .error e
      | .ok wr =>
        let errs := iconsErrs.2 ++ cr.2 ++ wr.2
        if icons.isEmpty then .ok (wr.1, errs)
        else
          match serializeIcons icons with
          | .error e => .error e
          | .ok bytes =>
            let s3 := putBlob wr.1 "icons/_icon_hashes.plist" bytes
            if output = false then .error .typeError
            else .ok (s3, errs)

/-! ## Claim theorems -/

/-- C1.  The claim says a catalog with zero records is not written and an
empty-catalog warning is appended instead.  The code's emptiness test
`catalogs[key] != ""` compares a list against a string and is always true,
so on a store with no pkgsinfo records the empty catalog `all` IS written
under `catalogs/all` and the error report stays empty: the warning branch
is dead code. -/
theorem claim1_empty_catalog_written_no_warning :
    makecatalogs (Store.mk []) ⟨false, false⟩ true =
      .ok (Store.mk [("catalogs/all", BlobContent.ok (serializeCatalog []))], []) := by
  rfl

/-- C2.  The claim says the uninstaller check applies the same existence
check as the installer check, so an `uninstaller_item_location` that
appears exactly in `knownPkgPaths` passes.  The code instead checks
`os.path.join("pkgs", location)` against the same prefix-stripped list, so
the exact match fails with a missing-uninstaller warning, while the
`pkgs/`-prefixed spelling would pass. -/
theorem claim2_uninstaller_prefix_mismatch :
    verify_pkginfo "foo.plist"
        [("name", PValue.str "Foo"),
         ("installer_item_location", PValue.str "apps/foo.pkg"),
         ("uninstaller_item_location", PValue.str "apps/fooU.pkg")]
        ["apps/foo.pkg", "apps/fooU.pkg"] =
      (false, [msgMissingUninstallerItem "foo.plist" "apps/fooU.pkg"]) ∧
    verify_pkginfo "foo.plist"
        [("name", PValue.str "Foo"),
         ("installer_item_location", PValue.str "apps/foo.pkg"),
         ("uninstaller_item_location", PValue.str "apps/fooU.pkg")]
        ["apps/foo.pkg", "pkgs/apps/fooU.pkg"] =
      (true, []) := by
  constructor <;> rfl

/-- C3.  The claim says a failed icon fetch produces NO entry in the
icon-hash mapping.  `_process_icon_hash` returns the basename even on
failure and the collection loop checks only name truthiness, so an entry
`app.png -> None` IS inserted (alongside the error string); serializing
that `None` into the manifest then raises `TypeError`, aborting the whole
build. -/
theorem claim3_failed_icon_entry_inserted :
    collectIcons [] [] [process_icon_hash ("icons/app.png", BlobContent.err "boom")] =
      ([("app.png", none)], [msgUnexpected "app.png" "boom"]) ∧
    makecatalogs (Store.mk [("icons/app.png", BlobContent.err "boom")]) ⟨false, false⟩ true =
      .error .typeError := by
  constructor <;> rfl

/-- Record A, declaring catalog `testing` (C8 scenario). -/
def c8rec1 : PkgInfo := [("name", PValue.str "A"), ("catalogs", PValue.list [PValue.str "testing"])]

/-- Record B, declaring catalog `Testing` (C8 scenario). -/
def c8rec2 : PkgInfo := [("name", PValue.str "B"), ("catalogs", PValue.list [PValue.str "Testing"])]

/-- Record C, declaring catalog `testing` again (C8 scenario). -/
def c8rec3 : PkgInfo := [("name", PValue.str "C"), ("catalogs", PValue.list [PValue.str "testing"])]

/-- A store holding the three C8 records as pkgsinfo blobs. -/
def c8store : Store := Store.mk
  [("pkgsinfo/a.plist", BlobContent.ok (Bytes.plist (PValue.dict c8rec1))),
   ("pkgsinfo/b.plist", BlobContent.ok (Bytes.plist (PValue.dict c8rec2))),
   ("pkgsinfo/c.plist", BlobContent.ok (Bytes.plist (PValue.dict c8rec3)))]

/-- The combined duplicate-name warning for `testing`/`Testing`. -/
def c8dupMsg : String := msgDuplicateCatalogs [PValue.str "testing", PValue.str "Testing"]

/-- C8 counterexample.  The claim says the build appends EXACTLY ONE
combined duplicate-name warning for the whole build.  The duplicate scan
sits inside the per-record loop, so with three records (the third processed
after the `testing`/`Testing` collision exists) the identical combined
warning is appended twice.  Both colliding catalogs are still written. -/
theorem claim8_duplicate_warning_twice_cex :
    makecatalogs c8store ⟨true, false⟩ true =
      .ok (Store.mk
        [("pkgsinfo/a.plist", BlobContent.ok (Bytes.plist (PValue.dict c8rec1))),
         ("pkgsinfo/b.plist", BlobContent.ok (Bytes.plist (PValue.dict c8rec2))),
         ("pkgsinfo/c.plist", BlobContent.ok (Bytes.plist (PValue.dict c8rec3))),
         ("catalogs/all", BlobContent.ok (serializeCatalog [c8rec1, c8rec2, c8rec3])),
         ("catalogs/testing", BlobContent.ok (serializeCatalog [c8rec1, c8rec3])),
         ("catalogs/Testing", BlobContent.ok (serializeCatalog [c8rec2]))],
        [c8dupMsg, c8dupMsg]) ∧
    ([c8dupMsg, c8dupMsg].count c8dupMsg ≠ 1) := by
  exact ⟨by rfl, by decide⟩

/-- C4 counterexample.  The claim says a sanitized record contains no key
named `notes` regardless of the stored value.  The code deletes `notes`
only when its value is truthy (`if pkginfo.get('notes'):`), so a record
stored with an empty-string `notes` keeps the key after sanitization. -/
theorem claim4_falsy_notes_retained_cex :
    process_pkgsinfo ("pkgsinfo/x.plist",
        BlobContent.ok (Bytes.plist (PValue.dict
          [("name", PValue.str "X"), ("notes", PValue.str "")]))) =
      .ok (some "x.plist", some [("name", PValue.str "X"), ("notes", PValue.str "")], none) ∧
    hasKey [("name", PValue.str "X"), ("notes", PValue.str "")] "notes" = true := by
  constructor <;> rfl

/-- C6.  A record whose declared installer path has no exact match in the
known-payload set but a case-insensitive one, with no uninstaller
obligations, passes verification with exactly one case-mismatch warning. -/
theorem claim6_case_mismatch_single_warning
    (ref : String) (d : PkgInfo) (pl : List String) (loc p : String)
    (h1 : isStrIn (lookupKey d "installer_type") exemptTypes = false)
    (h2 : truthyOpt (lookupKey d "PackageCompleteURL") = false)
    (h3 : truthyOpt (lookupKey d "PackageURL") = false)
    (h4 : lookupKey d "installer_item_location" = some (PValue.str loc))
    (h5 : pl.contains loc = false)
    (h6 : pl.find? (fun q => pyLower loc == pyLower q) = some p)
    (h7 : isStrIn (lookupKey d "uninstall_method") ["AdobeCCPUninstaller"] = false)
    (h8 : hasKey d "uninstaller_item_location" = false) :
    verify_pkginfo ref d pl = (true, [msgInstallerCase ref loc p]) := by
  simp only [verify_pkginfo, uninstallerCheck, h1, h2, h3, h4, h5, h6, h7, h8,
    Bool.false_and, Bool.or_self, Bool.false_eq_true, if_false]

/-- Witness for C6: a record matching `Apps/a.pkg` only up to case. -/
theorem claim6_case_mismatch_single_warning_witness :
    verify_pkginfo "x.plist"
        [("name", PValue.str "X"), ("installer_item_location", PValue.str "apps/a.pkg")]
        ["Apps/a.pkg"] =
      (true, [msgInstallerCase "x.plist" "apps/a.pkg" "Apps/a.pkg"]) :=
  claim6_case_mismatch_single_warning "x.plist"
    [("name", PValue.str "X"), ("installer_item_location", PValue.str "apps/a.pkg")]
    ["Apps/a.pkg"] "apps/a.pkg" "Apps/a.pkg"
    (by rfl) (by rfl) (by rfl) (by rfl) (by rfl) (by rfl) (by rfl) (by rfl)

/-- Looking a key up after filtering with a predicate that keeps every
entry carrying that key is the same as looking it up directly. -/
theorem lookupKey_filter (d : PkgInfo) (k : String) (p : String × PValue → Bool)
    (hp : ∀ v, p (k, v) = true) :
    lookupKey (d.filter p) k = lookupKey d k := by
  induction d with
  | nil => rfl
  | cons kv t ih =>
    by_cases hkv : kv.1 = k
    · have hpkv : p kv = true := by
        have : kv = (k, kv.2) := by
          cases kv; simp_all
        rw [this]; exact hp kv.2
      simp only [List.filter_cons, hpkv, if_true, lookupKey, List.find?_cons,
        show (kv.1 == k) = true by exact beq_iff_eq.mpr hkv]
    · have hbeq : (kv.1 == k) = false := beq_eq_false_iff_ne.mpr hkv
      cases hpv : p kv with
      | true =>
        simp only [List.filter_cons, hpv, if_true, lookupKey, List.find?_cons, hbeq]
        exact ih
      | false =>
        simp only [List.filter_cons, hpv, Bool.false_eq_true, if_false, lookupKey,
          List.find?_cons, hbeq]
        exact ih

/-- A key removed by `removeKey` can no longer be looked up, even after a
further filter. -/
theorem lookupKey_filter_removeKey (d : PkgInfo) (k : String) (p : String × PValue → Bool) :
    lookupKey ((removeKey d k).filter p) k = none := by
  simp only [lookupKey, Option.map_eq_none', List.find?_eq_none, removeKey]
  intro kv hkv
  have h1 := (List.mem_filter.mp hkv).1
  have h2 := (List.mem_filter.mp h1).2
  simpa using h2

/-- C4 amended.  Sanitization always removes every underscore-prefixed key,
and removes `notes` whenever its stored value is truthy; a `notes` key can
survive only with a falsy (empty/zero/false) value. -/
theorem claim4_sanitize_amended (blob : String × BlobContent) (ref? : Option String)
    (r : PkgInfo) (err? : Option String)
    (h : process_pkgsinfo blob = .ok (ref?, some r, err?)) :
    (∀ kv ∈ r, strStartsWith kv.1 "_" = false) ∧
    (∀ v, lookupKey r "notes" = some v → truthy v = false) := by
  obtain ⟨n, c⟩ := blob
  cases c with
  | err e => simp [process_pkgsinfo] at h
  | ok b =>
    cases b with
    | raw m => simp [process_pkgsinfo, readPlistFromString] at h
    | plist v =>
      cases v with
      | str s => simp [process_pkgsinfo, readPlistFromString] at h
      | int m => simp [process_pkgsinfo, readPlistFromString] at h
      | bool bb => simp [process_pkgsinfo, readPlistFromString] at h
      | list l => simp [process_pkgsinfo, readPlistFromString] at h
      | dict d =>
        simp only [process_pkgsinfo, readPlistFromString] at h
        have hr : r = (if truthyOpt (lookupKey d "notes") then removeKey d "notes" else d).filter
            (fun kv => !(strStartsWith kv.1 "_")) := by
          have := congrArg (fun x => match x with
            | Except.ok (_, p, _) => p
            | _ => none) h
          simpa using this.symm
        constructor
        · intro kv hkv
          rw [hr] at hkv
          have := (List.mem_filter.mp hkv).2
          simpa using this
        · intro v hv
          rw [hr] at hv
          cases htr : truthyOpt (lookupKey d "notes") with
          | true =>
            simp only [htr, eq_self_iff_true, if_true] at hv
            rw [lookupKey_filter_removeKey] at hv
            exact absurd hv (by simp)
          | false =>
            simp only [htr, Bool.false_eq_true, if_false] at hv
            rw [lookupKey_filter d "notes" _ (fun w => by rfl)] at hv
            rw [hv] at htr
            simpa [truthyOpt] using htr

/-- Witness for C4 amended: a record with a truthy `notes` and a
`_metadata` key loses both, keeping only `name`. -/
theorem claim4_sanitize_amended_witness :
    (∀ kv ∈ [("name", PValue.str "X")], strStartsWith kv.1 "_" = false) ∧
    (∀ v, lookupKey [("name", PValue.str "X")] "notes" = some v → truthy v = false) :=
  claim4_sanitize_amended
    ("pkgsinfo/x.plist", BlobContent.ok (Bytes.plist (PValue.dict
      [("name", PValue.str "X"), ("notes", PValue.str "private"),
       ("_metadata", PValue.dict [])])))
    (some "x.plist") [("name", PValue.str "X")] none (by rfl)

/-- True when some tuple carries a successfully loaded record that is
truthy (a non-empty dict), i.e. one the main loop would actually process. -/
def hasLoadedRecord (tuples : List PTuple) : Bool :=
  tuples.any (fun t => match t.2.1 with | some d => !d.isEmpty | none => false)

/-- With `output_fn` absent, the main loop raises `TypeError` at the first
tuple carrying a truthy record: both the `Verifying` call (payload check
on) and the `Adding to all` call (payload check skipped) are unguarded. -/
theorem procLoop_output_none_typeError (opts : Options) (pl : List String) :
    ∀ (tuples : List PTuple) (cats : Catalogs),
    hasLoadedRecord tuples = true →
    procLoop opts false pl tuples cats = .error .typeError := by
  intro tuples
  induction tuples with
  | nil => intro cats h; simp [hasLoadedRecord] at h
  | cons t rest ih =>
    intro cats h
    obtain ⟨r?, p?, e?⟩ := t
    cases p? with
    | none =>
      have hrest : hasLoadedRecord rest = true := by
        simpa [hasLoadedRecord] using h
      simp only [procLoop, procHead, ih cats hrest]
    | some d =>
      cases hde : d.isEmpty with
      | true =>
        have hrest : hasLoadedRecord rest = true := by
          simp only [hasLoadedRecord, List.any_cons] at h
          simpa [hde, hasLoadedRecord] using h
        simp only [procLoop, procHead, hde, if_true, ih cats hrest]
      | false =>
        have hh : procHead opts false pl (r?, some d, e?) cats = .error .typeError := by
          simp only [procHead, hde, Bool.false_eq_true, if_false]
          cases opts.skip_payload_check <;> simp [procRecord]
        simp only [procLoop, hh]

/-- C10.  Calling `makecatalogs` with `output_fn` absent raises `TypeError`
as soon as any successfully loaded (truthy) record is processed, because
the per-record `Verifying`/`Skipping`/`Adding` progress calls invoke
`output_fn` without the `if output_fn:` guard used elsewhere. -/
theorem claim10_output_fn_none_raises (s : Store) (opts : Options) (tuples : List PTuple)
    (h1 : processAll (listBlobs s "pkgsinfo") = .ok tuples)
    (h2 : hasLoadedRecord tuples = true) :
    makecatalogs s opts false = .error .typeError := by
  simp only [makecatalogs, buildCatalogs, h1,
    procLoop_output_none_typeError opts (itemlist s "pkgs") tuples
      [(PValue.str "all", [])] h2]

/-- Witness for C10: a store with one well-formed pkgsinfo record makes the
sink-less build raise. -/
theorem claim10_output_fn_none_raises_witness :
    makecatalogs (Store.mk
        [("pkgsinfo/x.plist", BlobContent.ok (Bytes.plist (PValue.dict
          [("name", PValue.str "X"), ("installer_type", PValue.str "nopkg")])))])
        ⟨false, false⟩ false =
      .error .typeError :=
  claim10_output_fn_none_raises
    (Store.mk
      [("pkgsinfo/x.plist", BlobContent.ok (Bytes.plist (PValue.dict
        [("name", PValue.str "X"), ("installer_type", PValue.str "nopkg")])))])
    ⟨false, false⟩
    [(some "x.plist",
      some [("name", PValue.str "X"), ("installer_type", PValue.str "nopkg")], none)]
    (by rfl) (by rfl)

/-- The records of catalog `all`. -/
def allRecords (cats : Catalogs) : List PkgInfo :=
  match cats.find? (fun e => e.1 == PValue.str "all") with
  | some e => e.2
  | none => []

/-- Finding under a key-preserving map commutes with the map. -/
theorem find?_map_keyfix (f : PValue × List PkgInfo → PValue × List PkgInfo)
    (hf : ∀ e, (f e).1 = e.1) (cats : Catalogs) (k : PValue) :
    (cats.map f).find? (fun e => e.1 == k) =
      (cats.find? (fun e => e.1 == k)).map f := by
  induction cats with
  | nil => rfl
  | cons e t ih =>
    simp only [List.map_cons, List.find?_cons, hf e]
    cases he : (e.1 == k) with
    | true => rfl
    | false => exact ih

theorem catMember_catAppend (cats : Catalogs) (v k : PValue) (d : PkgInfo) :
    catMember (catAppend cats v d) k = catMember cats k := by
  induction cats with
  | nil => rfl
  | cons e t ih =>
    simp only [catMember, catAppend, List.map_cons, List.any_cons] at ih ⊢
    have hfst : (if (e.1 == v) = true then (e.1, e.2 ++ [d]) else e).1 = e.1 := by
      by_cases h : e.1 = v <;> simp [h]
    rw [hfst, ih]

theorem memberOfFind (cats : Catalogs) (e : PValue × List PkgInfo)
    (hf : cats.find? (fun x => x.1 == PValue.str "all") = some e) :
    catMember cats (PValue.str "all") = true := by
  have hmem := List.mem_of_find?_eq_some hf
  have hpred := List.find?_some hf
  simp only [catMember]
  rw [List.any_eq_true]
  exact ⟨e, hmem, hpred⟩

theorem allRecords_catAppend (cats : Catalogs) (v : PValue) (d : PkgInfo) :
    allRecords (catAppend cats v d) =
      if v = PValue.str "all" ∧ catMember cats (PValue.str "all") = true then
        allRecords cats ++ [d]
      else allRecords cats := by
  have hkey : ∀ e : PValue × List PkgInfo,
      ((if e.1 == v then (e.1, e.2 ++ [d]) else e)).1 = e.1 := by
    intro e; by_cases h : e.1 = v <;> simp [h]
  simp only [allRecords, catAppend,
    find?_map_keyfix (fun e => if e.1 == v then (e.1, e.2 ++ [d]) else e) hkey cats
      (PValue.str "all")]
  cases hf : cats.find? (fun e => e.1 == PValue.str "all") with
  | none =>
    have hm : catMember cats (PValue.str "all") = false := by
      simp only [catMember]
      rw [List.any_eq_false]
      intro e he
      have := List.find?_eq_none.mp hf e he
      simpa using this
    simp [hm]
  | some e =>
    have hm : catMember cats (PValue.str "all") = true := memberOfFind cats e hf
    have hek : e.1 = PValue.str "all" := by
      have hpred := List.find?_some hf
      simpa using hpred
    by_cases hv : v = PValue.str "all"
    · subst hv
      simp [hm, hek, Option.map_some]
    · have hne2 : e.1 ≠ v := by rw [hek]; exact fun hh => hv hh.symm
      simp [hm, hv, hne2, Option.map_some]

theorem find?_append_pv (l1 l2 : Catalogs) (p : PValue × List PkgInfo → Bool) :
    (l1 ++ l2).find? p = ((l1.find? p).or (l2.find? p)) := by
  induction l1 with
  | nil => simp
  | cons e t ih =>
    simp only [List.cons_append, List.find?_cons]
    cases hp : p e <;> simp [ih]

theorem allRecords_catAdd (cats : Catalogs) (v : PValue) (d : PkgInfo) :
    allRecords (catAdd cats v d) =
      if v = PValue.str "all" then allRecords cats ++ [d] else allRecords cats := by
  simp only [catAdd]
  cases hm : catMember cats v with
  | true =>
    simp only [if_true]
    rw [allRecords_catAppend]
    by_cases hv : v = PValue.str "all"
    · subst hv; simp [hm]
    · simp [hv]
  | false =>
    simp only [Bool.false_eq_true, if_false, allRecords, find?_append_pv]
    by_cases hv : v = PValue.str "all"
    · subst hv
      have hfnone : cats.find? (fun e => e.1 == PValue.str "all") = none := by
        cases hf : cats.find? (fun e => e.1 == PValue.str "all") with
        | none => rfl
        | some e =>
          have hmm := memberOfFind cats e hf
          rw [hmm] at hm
          exact absurd hm (by simp)
      simp [hfnone, List.find?, Option.none_or]
    · have hne : (v == PValue.str "all") = false := beq_eq_false_iff_ne.mpr hv
      simp [List.find?, hne, Option.or_none, hv]

theorem catMember_catAdd (cats : Catalogs) (v k : PValue) (d : PkgInfo)
    (h : catMember cats k = true) :
    catMember (catAdd cats v d) k = true := by
  simp only [catAdd]
  cases hm : catMember cats v with
  | true =>
    simp only [if_true]
    rw [catMember_catAppend]; exact h
  | false =>
    simp only [Bool.false_eq_true, if_false, catMember, List.any_append]
    simp only [catMember] at h
    simp [h]

/-- Invariant: every record of every catalog also sits in catalog `all`. -/
def CatInv (cats : Catalogs) : Prop :=
  ∀ e ∈ cats, ∀ p ∈ e.2, p ∈ allRecords cats

theorem allRecords_mono_catAppend (cats : Catalogs) (v : PValue) (d : PkgInfo)
    (x : PkgInfo) (hx : x ∈ allRecords cats) :
    x ∈ allRecords (catAppend cats v d) := by
  rw [allRecords_catAppend]
  by_cases h : v = PValue.str "all" ∧ catMember cats (PValue.str "all") = true
  · simp only [h, if_true]
    exact List.mem_append_left _ hx
  · simp only [h, if_false]
    exact hx

theorem allRecords_mono_catAdd (cats : Catalogs) (v : PValue) (d : PkgInfo)
    (x : PkgInfo) (hx : x ∈ allRecords cats) :
    x ∈ allRecords (catAdd cats v d) := by
  rw [allRecords_catAdd]
  by_cases h : v = PValue.str "all"
  · simp only [h, if_true]
    exact List.mem_append_left _ hx
  · simp only [h, if_false]
    exact hx

theorem allRecords_catAdd_cases (cats : Catalogs) (v : PValue) (d : PkgInfo)
    (x : PkgInfo) (hx : x ∈ allRecords (catAdd cats v d)) :
    x ∈ allRecords cats ∨ x = d := by
  rw [allRecords_catAdd] at hx
  by_cases h : v = PValue.str "all"
  · simp only [h, if_true] at hx
    rcases List.mem_append.mp hx with h1 | h1
    · exact Or.inl h1
    · exact Or.inr (List.mem_singleton.mp h1)
  · simp only [h, if_false] at hx
    exact Or.inl hx

theorem CatInv_catAppend_all (cats : Catalogs) (d : PkgInfo)
    (hall : catMember cats (PValue.str "all") = true) (hinv : CatInv cats) :
    CatInv (catAppend cats (PValue.str "all") d) := by
  intro e' he' p hp
  simp only [catAppend] at he'
  obtain ⟨e, he, hfe⟩ := List.mem_map.mp he'
  by_cases hk : e.1 = PValue.str "all"
  · have : (e.1 == PValue.str "all") = true := beq_iff_eq.mpr hk
    rw [← hfe] at hp
    simp only [this, if_true] at hp
    rcases List.mem_append.mp hp with h1 | h1
    · exact allRecords_mono_catAppend cats _ d p (hinv e he p h1)
    · rw [List.mem_singleton.mp h1]
      rw [allRecords_catAppend]
      simp only [hall, and_true, if_pos rfl]
      exact List.mem_append_right _ (List.mem_singleton.mpr rfl)
  · have : (e.1 == PValue.str "all") = false := beq_eq_false_iff_ne.mpr hk
    rw [← hfe] at hp
    simp only [this, Bool.false_eq_true, if_false] at hp
    exact allRecords_mono_catAppend cats _ d p (hinv e he p hp)

theorem CatInv_catAdd (cats : Catalogs) (v : PValue) (d : PkgInfo)
    (hinv : CatInv cats) (hd : d ∈ allRecords cats) :
    CatInv (catAdd cats v d) := by
  intro e' he' p hp
  simp only [catAdd] at he'
  cases hm : catMember cats v with
  | true =>
    rw [hm] at he'
    simp only [eq_self_iff_true, if_true, catAppend] at he'
    obtain ⟨e, he, hfe⟩ := List.mem_map.mp he'
    by_cases hk : e.1 = v
    · have hbeq : (e.1 == v) = true := beq_iff_eq.mpr hk
      rw [← hfe] at hp
      simp only [hbeq, if_true] at hp
      rcases List.mem_append.mp hp with h1 | h1
      · exact allRecords_mono_catAdd cats v d p (hinv e he p h1)
      · rw [List.mem_singleton.mp h1]
        exact allRecords_mono_catAdd cats v d d hd
    · have hbeq : (e.1 == v) = false := beq_eq_false_iff_ne.mpr hk
      rw [← hfe] at hp
      simp only [hbeq, Bool.false_eq_true, if_false] at hp
      exact allRecords_mono_catAdd cats v d p (hinv e he p hp)
  | false =>
    rw [hm] at he'
    simp only [Bool.false_eq_true, if_false] at he'
    rcases List.mem_append.mp he' with h1 | h1
    · exact allRecords_mono_catAdd cats v d p (hinv e' h1 p hp)
    · have : e' = (v, [d]) := List.mem_singleton.mp h1
      rw [this] at hp
      rw [List.mem_singleton.mp hp]
      exact allRecords_mono_catAdd cats v d d hd

/-- The declared-catalogs loop preserves the `all` key, the invariant, and
grows `all` only by copies of the record being added. -/
theorem addToCatalogs_inv (ref : String) (d : PkgInfo) :
    ∀ (names : List PValue) (cats : Catalogs),
    catMember cats (PValue.str "all") = true → CatInv cats → d ∈ allRecords cats →
    catMember (addToCatalogs ref d names cats).1 (PValue.str "all") = true ∧
    CatInv (addToCatalogs ref d names cats).1 ∧
    d ∈ allRecords (addToCatalogs ref d names cats).1 ∧
    (∀ x ∈ allRecords (addToCatalogs ref d names cats).1,
      x ∈ allRecords cats ∨ x = d) := by
  intro names
  induction names with
  | nil =>
    intro cats hall hinv hd
    exact ⟨hall, hinv, hd, fun x hx => Or.inl hx⟩
  | cons v vs ih =>
    intro cats hall hinv hd
    cases ht : truthy v with
    | false =>
      simp only [addToCatalogs, ht, Bool.not_false, if_true]
      exact ih cats hall hinv hd
    | true =>
      simp only [addToCatalogs, ht, Bool.not_true, Bool.false_eq_true, if_false]
      have hall1 := catMember_catAdd cats v (PValue.str "all") d hall
      have hinv1 := CatInv_catAdd cats v d hinv hd
      have hd1 := allRecords_mono_catAdd cats v d d hd
      obtain ⟨a, b, c, chars⟩ := ih (catAdd cats v d) hall1 hinv1 hd1
      refine ⟨a, b, c, fun x hx => ?_⟩
      rcases chars x hx with h1 | h1
      · exact allRecords_catAdd_cases cats v d x h1
      · exact Or.inr h1

/-- `procRecord` preserves the invariant and grows `all` only with the
processed record. -/
theorem procRecord_inv (output : Bool) (ref : String) (d : PkgInfo)
    (cats c2 : Catalogs) (m : List String)
    (hall : catMember cats (PValue.str "all") = true) (hinv : CatInv cats)
    (h : procRecord output ref d cats = .ok (c2, m)) :
    catMember c2 (PValue.str "all") = true ∧ CatInv c2 ∧
    d ∈ allRecords c2 ∧
    (∀ x ∈ allRecords c2, x ∈ allRecords cats ∨ x = d) := by
  cases output with
  | false => simp [procRecord] at h
  | true =>
    simp only [procRecord, Bool.true_eq_false, if_false] at h
    cases hit : pyIter (lookupKey d "catalogs") with
    | error e => simp only [hit] at h; exact absurd h (by simp)
    | ok names =>
      simp only [hit] at h
      cases hsc : scanDup ((addToCatalogs ref d names
          (catAppend cats (PValue.str "all") d)).1.map (fun e => e.1)) with
      | error e => simp only [hsc] at h; exact absurd h (by simp)
      | ok dups =>
        simp only [hsc] at h
        have hc2 : c2 = (addToCatalogs ref d names
            (catAppend cats (PValue.str "all") d)).1 := by
          have := congrArg (fun x => match x with
            | Except.ok (c, _) => c
            | _ => ([] : Catalogs)) h
          simpa using this.symm
        have hall1 : catMember (catAppend cats (PValue.str "all") d)
            (PValue.str "all") = true := by
          rw [catMember_catAppend]; exact hall
        have hinv1 := CatInv_catAppend_all cats d hall hinv
        have hd1 : d ∈ allRecords (catAppend cats (PValue.str "all") d) := by
          rw [allRecords_catAppend]
          simp only [hall, and_true, if_pos rfl]
          exact List.mem_append_right _ (List.mem_singleton.mpr rfl)
        obtain ⟨a, b, c, chars⟩ := addToCatalogs_inv ref d names
          (catAppend cats (PValue.str "all") d) hall1 hinv1 hd1
        subst hc2
        refine ⟨a, b, c, fun x hx => ?_⟩
        rcases chars x hx with h1 | h1
        · rw [allRecords_catAppend] at h1
          simp only [hall, and_true, if_pos rfl] at h1
          rcases List.mem_append.mp h1 with h2 | h2
          · exact Or.inl h2
          · exact Or.inr (List.mem_singleton.mp h2)
        · exact Or.inr h1

/-- One step of the main loop with the payload check on, no forcing and a
live sink: the invariant is preserved and `all` only gains the head's
record, and only when it passed verification. -/
theorem procHead_inv (pl : List String) (t : PTuple) (cats c2 : Catalogs)
    (m : List String)
    (hall : catMember cats (PValue.str "all") = true) (hinv : CatInv cats)
    (h : procHead ⟨false, false⟩ true pl t cats = .ok (c2, m)) :
    catMember c2 (PValue.str "all") = true ∧ CatInv c2 ∧
    (∀ x ∈ allRecords c2, x ∈ allRecords cats ∨
      (t.2.1 = some x ∧ (verify_pkginfo (t.1.getD "") x pl).1 = true)) := by
  obtain ⟨r?, p?, e?⟩ := t
  cases p? with
  | none =>
    simp only [procHead] at h
    have hc : c2 = cats := by
      have := congrArg (fun x => match x with
        | Except.ok (c, _) => c
        | _ => ([] : Catalogs)) h
      simpa using this.symm
    subst hc
    exact ⟨hall, hinv, fun x hx => Or.inl hx⟩
  | some d =>
    cases hde : d.isEmpty with
    | true =>
      simp only [procHead, hde, if_true] at h
      have hc : c2 = cats := by
        have := congrArg (fun x => match x with
          | Except.ok (c, _) => c
          | _ => ([] : Catalogs)) h
        simpa using this.symm
      subst hc
      exact ⟨hall, hinv, fun x hx => Or.inl hx⟩
    | false =>
      simp only [procHead, hde, Bool.false_eq_true, if_false] at h
      cases hv : (verify_pkginfo ((r?).getD "") d pl).1 with
      | false =>
        simp only [hv, Bool.not_false, Bool.not_true, Bool.and_self, if_true] at h
        have hc : c2 = cats := by
          have := congrArg (fun x => match x with
            | Except.ok (c, _) => c
            | _ => ([] : Catalogs)) h
          simpa using this.symm
        subst hc
        exact ⟨hall, hinv, fun x hx => Or.inl hx⟩
      | true =>
        simp only [hv, Bool.not_true, Bool.false_and, Bool.false_eq_true, if_false] at h
        cases hpr : procRecord true ((r?).getD "") d cats with
        | error e => simp only [hpr] at h; exact absurd h (by simp)
        | ok r =>
          simp only [hpr] at h
          have hc : c2 = r.1 := by
            have := congrArg (fun x => match x with
              | Except.ok (c, _) => c
              | _ => ([] : Catalogs)) h
            simpa using this.symm
          obtain ⟨a, b, _, chars⟩ := procRecord_inv true ((r?).getD "") d cats r.1 r.2
            hall hinv (by rw [hpr])
          subst hc
          refine ⟨a, b, fun x hx => ?_⟩
          rcases chars x hx with h1 | h1
          · exact Or.inl h1
          · subst h1
            exact Or.inr ⟨rfl, hv⟩

/-- The main loop with the payload check on, no forcing and a live sink
preserves the invariant; every record of `all` traces back to a tuple whose
record passed verification. -/
theorem procLoop_inv (pl : List String) :
    ∀ (tuples : List PTuple) (cats c2 : Catalogs) (m : List String),
    catMember cats (PValue.str "all") = true → CatInv cats →
    procLoop ⟨false, false⟩ true pl tuples cats = .ok (c2, m) →
    catMember c2 (PValue.str "all") = true ∧ CatInv c2 ∧
    (∀ x ∈ allRecords c2, x ∈ allRecords cats ∨
      ∃ t ∈ tuples, t.2.1 = some x ∧ (verify_pkginfo (t.1.getD "") x pl).1 = true) := by
  intro tuples
  induction tuples with
  | nil =>
    intro cats c2 m hall hinv h
    simp only [procLoop] at h
    have hc : c2 = cats := by
      have := congrArg (fun x => match x with
        | Except.ok (c, _) => c
        | _ => ([] : Catalogs)) h
      simpa using this.symm
    subst hc
    exact ⟨hall, hinv, fun x hx => Or.inl hx⟩
  | cons t rest ih =>
    intro cats c2 m hall hinv h
    simp only [procLoop] at h
    cases hh : procHead ⟨false, false⟩ true pl t cats with
    | error e => simp only [hh] at h; exact absurd h (by simp)
    | ok r =>
      simp only [hh] at h
      cases hrest : procLoop ⟨false, false⟩ true pl rest r.1 with
      | error e => simp only [hrest] at h; exact absurd h (by simp)
      | ok rr =>
        simp only [hrest] at h
        have hc : c2 = rr.1 := by
          have := congrArg (fun x => match x with
            | Except.ok (c, _) => c
            | _ => ([] : Catalogs)) h
          simpa using this.symm
        obtain ⟨a1, b1, chars1⟩ := procHead_inv pl t cats r.1 r.2 hall hinv (by rw [hh])
        obtain ⟨a2, b2, chars2⟩ := ih r.1 rr.1 rr.2 a1 b1 (by rw [hrest])
        subst hc
        refine ⟨a2, b2, fun x hx => ?_⟩
        rcases chars2 x hx with h1 | ⟨t', ht', hsome, hver⟩
        · rcases chars1 x h1 with h2 | ⟨hsome, hver⟩
          · exact Or.inl h2
          · exact Or.inr ⟨t, List.mem_cons_self t rest, hsome, hver⟩
        · exact Or.inr ⟨t', List.mem_cons_of_mem t ht', hsome, hver⟩

/-- C7.  After aggregation (payload check on, `force` off, live sink),
every record included in any catalog is also present in catalog `all`, and
`all` contains only records from tuples that passed verification. -/
theorem claim7_all_catalog_invariant (pl : List String) (tuples : List PTuple)
    (cats : Catalogs) (msgs : List String)
    (h : procLoop ⟨false, false⟩ true pl tuples [(PValue.str "all", [])] = .ok (cats, msgs)) :
    (∀ e ∈ cats, ∀ p ∈ e.2, p ∈ allRecords cats) ∧
    (∀ p ∈ allRecords cats, ∃ t ∈ tuples, t.2.1 = some p ∧
      (verify_pkginfo (t.1.getD "") p pl).1 = true) := by
  have hall : catMember [(PValue.str "all", ([] : List PkgInfo))]
      (PValue.str "all") = true := by decide
  have hinv : CatInv [(PValue.str "all", ([] : List PkgInfo))] := by
    intro e he p hp
    have : e = (PValue.str "all", ([] : List PkgInfo)) := List.mem_singleton.mp he
    rw [this] at hp
    exact absurd hp (List.not_mem_nil p)
  obtain ⟨_, hinv2, chars⟩ := procLoop_inv pl tuples _ cats msgs hall hinv h
  refine ⟨hinv2, fun p hp => ?_⟩
  rcases chars p hp with h1 | h1
  · simp only [allRecords, List.find?] at h1
    simp at h1
  · exact h1

/-- Witness for C7: a single verified (`nopkg`) record lands in `all`. -/
theorem claim7_all_catalog_invariant_witness :
    (∀ e ∈ [(PValue.str "all",
        [[("name", PValue.str "X"), ("installer_type", PValue.str "nopkg")]])],
      ∀ p ∈ e.2, p ∈ allRecords [(PValue.str "all",
        [[("name", PValue.str "X"), ("installer_type", PValue.str "nopkg")]])]) ∧
    (∀ p ∈ allRecords [(PValue.str "all",
        [[("name", PValue.str "X"), ("installer_type", PValue.str "nopkg")]])],
      ∃ t ∈ [((some "x.plist" : Option String),
          (some [("name", PValue.str "X"), ("installer_type", PValue.str "nopkg")] :
            Option PkgInfo), (none : Option String))],
        t.2.1 = some p ∧ (verify_pkginfo (t.1.getD "") p []).1 = true) :=
  claim7_all_catalog_invariant []
    [(some "x.plist",
      some [("name", PValue.str "X"), ("installer_type", PValue.str "nopkg")], none)]
    [(PValue.str "all",
      [[("name", PValue.str "X"), ("installer_type", PValue.str "nopkg")]])]
    [] (by rfl)

/-- C8 amended.  Because the duplicate-name scan runs inside the per-record
loop, processing one included record (payload check skipped here so the
step is isolated) appends the combined duplicate-name warning exactly once
when the updated catalog-name set has case-insensitive duplicates and not
at all otherwise; and the colliding catalogs are still written (second
conjunct: both `testing` and `Testing` blobs exist after the three-record
build). -/
theorem claim8_duplicate_warning_per_record :
    (∀ (f : Bool) (ref : String) (d : PkgInfo) (err? : Option String)
        (rest : List PTuple) (cats : Catalogs) (pl : List String)
        (names : List PValue) (dups : List PValue),
      d.isEmpty = false →
      pyIter (lookupKey d "catalogs") = .ok names →
      scanDup (((addToCatalogs ref d names
          (catAppend cats (PValue.str "all") d)).1).map (fun e => e.1)) = .ok dups →
      procLoop ⟨true, f⟩ true pl ((some ref, some d, err?) :: rest) cats =
        (procLoop ⟨true, f⟩ true pl rest
            (addToCatalogs ref d names (catAppend cats (PValue.str "all") d)).1).map
          (fun r => (r.1,
            errMsgList err? ++
            ((addToCatalogs ref d names (catAppend cats (PValue.str "all") d)).2 ++
              (if dups.isEmpty then [] else [msgDuplicateCatalogs dups])) ++ r.2))) ∧
    (makecatalogs c8store ⟨true, false⟩ true).toOption.map
        (fun r => (blobLookup r.1 "catalogs/testing", blobLookup r.1 "catalogs/Testing")) =
      some (some (BlobContent.ok (serializeCatalog [c8rec1, c8rec3])),
            some (BlobContent.ok (serializeCatalog [c8rec2]))) := by
  constructor
  · intro f ref d err? rest cats pl names dups hde hit hsc
    have hh : procHead ⟨true, f⟩ true pl (some ref, some d, err?) cats =
        .ok ((addToCatalogs ref d names (catAppend cats (PValue.str "all") d)).1,
          errMsgList err? ++
          ((addToCatalogs ref d names (catAppend cats (PValue.str "all") d)).2 ++
            (if dups.isEmpty then [] else [msgDuplicateCatalogs dups]))) := by
      simp only [procHead, hde, Bool.false_eq_true, if_false, if_true, procRecord,
        Bool.true_eq_false, Option.getD_some, hit, hsc]
    cases hrest : procLoop ⟨true, f⟩ true pl rest
        (addToCatalogs ref d names (catAppend cats (PValue.str "all") d)).1 with
    | error e =>
      simp only [procLoop, hh, hrest]
      rfl
    | ok rr =>
      simp only [procLoop, hh, hrest]
      rfl
  · rfl

/-- Witness for C8 amended: processing record B (declaring `Testing`) when
`testing` already exists appends the combined warning exactly once. -/
theorem claim8_duplicate_warning_per_record_witness :
    procLoop ⟨true, false⟩ true []
        ((some "b.plist", some c8rec2, none) :: ([] : List PTuple))
        [(PValue.str "all", [c8rec1]), (PValue.str "testing", [c8rec1])] =
      (procLoop ⟨true, false⟩ true [] []
          (addToCatalogs "b.plist" c8rec2 [PValue.str "Testing"]
            (catAppend [(PValue.str "all", [c8rec1]), (PValue.str "testing", [c8rec1])]
              (PValue.str "all") c8rec2)).1).map
        (fun r => (r.1,
          errMsgList none ++
          ((addToCatalogs "b.plist" c8rec2 [PValue.str "Testing"]
            (catAppend [(PValue.str "all", [c8rec1]), (PValue.str "testing", [c8rec1])]
              (PValue.str "all") c8rec2)).2 ++
            (if ([PValue.str "testing", PValue.str "Testing"] : List PValue).isEmpty then []
             else [msgDuplicateCatalogs [PValue.str "testing", PValue.str "Testing"]])) ++ r.2)) :=
  claim8_duplicate_warning_per_record.1 false "b.plist" c8rec2 none []
    [(PValue.str "all", [c8rec1]), (PValue.str "testing", [c8rec1])] []
    [PValue.str "Testing"] [PValue.str "testing", PValue.str "Testing"]
    (by rfl) (by rfl) (by rfl)

/-! ## Store lemmas for the idempotence claim -/

/-- The blob names of a store, in storage order. -/
def storeNames (s : Store) : List String :=
  s.blobs.map (fun e => e.1)

theorem storeNames_putBlob (s : Store) (n : String) (b : Bytes) :
    storeNames (putBlob s n b) =
      if s.blobs.any (fun e => e.1 == n) then storeNames s else storeNames s ++ [n] := by
  simp only [putBlob]
  cases hex : s.blobs.any (fun e => e.1 == n) with
  | true =>
    simp only [if_true, storeNames, List.map_map]
    apply List.map_congr_left
    intro e _
    by_cases h : e.1 = n <;> simp [Function.comp, h]
  | false =>
    simp [storeNames]

theorem storeNames_deleteBlob (s : Store) (n : String) :
    storeNames (deleteBlob s n) = (storeNames s).filter (fun m => !(m == n)) := by
  simp only [deleteBlob, storeNames]
  induction s.blobs with
  | nil => rfl
  | cons e t ih =>
    simp only [List.filter_cons, List.map_cons]
    cases he : (e.1 == n) with
    | true => simpa [he] using ih
    | false => simpa [he] using congrArg (fun l => e.1 :: l) ih

theorem filter_map_putEntry (l : List (String × BlobContent)) (n : String) (b : Bytes)
    (p : String) (h : strStartsWith n p = false) :
    (l.map (fun e => if e.1 == n then (n, BlobContent.ok b) else e)).filter
        (fun e => strStartsWith e.1 p) =
      l.filter (fun e => strStartsWith e.1 p) := by
  induction l with
  | nil => rfl
  | cons e t ih =>
    simp only [List.map_cons, List.filter_cons]
    by_cases he : e.1 = n
    · have hbeq : (e.1 == n) = true := beq_iff_eq.mpr he
      have hsp : strStartsWith e.1 p = false := by rw [he]; exact h
      simp only [hbeq, if_true, h, hsp, Bool.false_eq_true, if_false]
      exact ih
    · have hbeq : (e.1 == n) = false := beq_eq_false_iff_ne.mpr he
      simp only [hbeq, Bool.false_eq_true, if_false]
      cases hsp : strStartsWith e.1 p with
      | true => simpa [hsp] using congrArg (fun l => e :: l) ih
      | false => simpa [hsp] using ih

theorem listBlobs_putBlob_of_ne (s : Store) (n : String) (b : Bytes) (p : String)
    (h : strStartsWith n p = false) :
    listBlobs (putBlob s n b) p = listBlobs s p := by
  simp only [putBlob, listBlobs]
  cases hex : s.blobs.any (fun e => e.1 == n) with
  | true =>
    simp only [if_true]
    exact filter_map_putEntry s.blobs n b p h
  | false =>
    simp only [Bool.false_eq_true, if_false, List.filter_append]
    simp [h]

theorem listBlobs_deleteBlob_of_ne (s : Store) (n : String) (p : String)
    (h : strStartsWith n p = false) :
    listBlobs (deleteBlob s n) p = listBlobs s p := by
  simp only [deleteBlob, listBlobs]
  induction s.blobs with
  | nil => rfl
  | cons e t ih =>
    simp only [List.filter_cons]
    cases he : (e.1 == n) with
    | true =>
      have : strStartsWith e.1 p = false := by
        rw [beq_iff_eq.mp he]; exact h
      simpa [he, this] using ih
    | false =>
      cases hsp : strStartsWith e.1 p with
      | true => simpa [he, hsp] using congrArg (fun l => e :: l) ih
      | false => simpa [he, hsp] using ih

theorem isPrefixOf_cons_ne (a b : Char) (as bs : List Char) (h : (a == b) = false) :
    List.isPrefixOf (a :: as) (b :: bs) = false := by
  simp [List.isPrefixOf, h]

theorem startsWith_slash_data (x : String) (hx : strStartsWith x "/" = true) :
    ∃ t, x.data = '/' :: t := by
  simp only [strStartsWith] at hx
  cases hd : x.data with
  | nil => rw [hd] at hx; simp [List.isPrefixOf] at hx
  | cons c t =>
    rw [hd] at hx
    simp only [List.isPrefixOf, List.isPrefixOf_nil_left, Bool.and_true] at hx
    exact ⟨t, by rw [beq_iff_eq.mp hx]⟩

theorem pyJoin_catalogs_not_p (x : String) (p : String)
    (hp : ∃ c t, p.data = c :: t ∧ (c == 'c') = false ∧ (c == '/') = false) :
    strStartsWith (pyJoin "catalogs" x) p = false := by
  obtain ⟨c, t, hpd, hc, hs⟩ := hp
  simp only [pyJoin]
  cases hab : strStartsWith x "/" with
  | true =>
    simp only [if_true]
    obtain ⟨xt, hxd⟩ := startsWith_slash_data x hab
    simp only [strStartsWith, hpd, hxd]
    exact isPrefixOf_cons_ne c '/' t xt (by
      cases hcc : (c == '/') with
      | true => rw [hcc] at hs; exact absurd hs (by simp)
      | false => rfl)
  | false =>
    simp only [Bool.false_eq_true, if_false, strStartsWith, String.data_append, hpd]
    show List.isPrefixOf (c :: t) ('c' :: _) = false
    exact isPrefixOf_cons_ne c 'c' t _ hc

theorem pyJoin_catalogs_not_pkgsinfo (x : String) :
    strStartsWith (pyJoin "catalogs" x) "pkgsinfo" = false :=
  pyJoin_catalogs_not_p x "pkgsinfo" ⟨'p', _, rfl, by decide, by decide⟩

theorem pyJoin_catalogs_not_pkgsSlash (x : String) :
    strStartsWith (pyJoin "catalogs" x) "pkgs/" = false :=
  pyJoin_catalogs_not_p x "pkgs/" ⟨'p', _, rfl, by decide, by decide⟩

theorem pyJoin_catalogs_not_icons (x : String) :
    strStartsWith (pyJoin "catalogs" x) "icons" = false :=
  pyJoin_catalogs_not_p x "icons" ⟨'i', _, rfl, by decide, by decide⟩

/-- `deleteLoop` with a live sink never raises: it is the fold of the
joined deletions. -/
def delFold (st : Store) (ns : List String) : Store :=
  ns.foldl (fun acc n => deleteBlob acc (pyJoin "catalogs" n)) st

theorem deleteLoop_ok (ns : List String) : ∀ st : Store,
    deleteLoop true st ns = .ok (delFold st ns) := by
  induction ns with
  | nil => intro st; rfl
  | cons n t ih =>
    intro st
    simp only [deleteLoop, Bool.true_eq_false, if_false, delFold, List.foldl_cons]
    exact ih (deleteBlob st (pyJoin "catalogs" n))

/-- The store written by the catalog write loop. -/
def catPath (k : PValue) : String :=
  match k with
  | .str s => pyJoin "catalogs" s
  | _ => ""

def writeFold (st : Store) (cats : Catalogs) : Store :=
  cats.foldl (fun acc e => putBlob acc (catPath e.1) (serializeCatalog e.2)) st

theorem writeLoop_ok_char (cats : Catalogs) : ∀ (st st' : Store) (m : List String),
    writeLoop true st cats = .ok (st', m) →
    m = [] ∧ st' = writeFold st cats ∧ ∀ e ∈ cats, ∃ k, e.1 = PValue.str k := by
  induction cats with
  | nil =>
    intro st st' m h
    simp only [writeLoop] at h
    have h1 := Except.ok.inj h
    exact ⟨(congrArg Prod.snd h1).symm, (congrArg Prod.fst h1).symm,
      fun e he => absurd he (List.not_mem_nil e)⟩
  | cons e rest ih =>
    intro st st' m h
    obtain ⟨k, ps⟩ := e
    cases k with
    | str key =>
      simp only [writeLoop, pyNeqEmptyString, if_true] at h
      cases hw : writeLoop true (putBlob st (pyJoin "catalogs" key) (serializeCatalog ps)) rest with
      | error e2 => rw [hw] at h; exact absurd h (by simp)
      | ok r =>
        rw [hw] at h
        obtain ⟨hm, hst, hkeys⟩ := ih _ r.1 r.2 (by rw [hw])
        have hr : st' = r.1 ∧ m = r.2 := by
          have h1 := Except.ok.inj h
          exact ⟨(congrArg Prod.fst h1).symm, (congrArg Prod.snd h1).symm⟩
        refine ⟨hr.2.trans hm, ?_, ?_⟩
        · rw [hr.1, hst]
          rfl
        · intro e2 he2
          rcases List.mem_cons.mp he2 with h2 | h2
          · exact ⟨key, by rw [h2]⟩
          · exact hkeys e2 h2
    | int v => simp [writeLoop] at h
    | bool v => simp [writeLoop] at h
    | list v => simp [writeLoop] at h
    | dict v => simp [writeLoop] at h

theorem writeLoop_of_keysStr (cats : Catalogs) : ∀ st : Store,
    (∀ e ∈ cats, ∃ k, e.1 = PValue.str k) →
    writeLoop true st cats = .ok (writeFold st cats, []) := by
  induction cats with
  | nil => intro st _; rfl
  | cons e rest ih =>
    intro st hkeys
    obtain ⟨key, hk⟩ := hkeys e (List.mem_cons_self e rest)
    obtain ⟨k0, ps⟩ := e
    simp only at hk
    subst hk
    simp only [writeLoop, pyNeqEmptyString, if_true]
    rw [ih (putBlob st (pyJoin "catalogs" key) (serializeCatalog ps))
      (fun e2 he2 => hkeys e2 (List.mem_cons_of_mem _ he2))]
    rfl

theorem namesFiltered_putBlob_of_ne (s : Store) (n : String) (b : Bytes) (p : String)
    (h : strStartsWith n p = false) :
    (storeNames (putBlob s n b)).filter (fun m => strStartsWith m p) =
      (storeNames s).filter (fun m => strStartsWith m p) := by
  rw [storeNames_putBlob]
  cases hex : s.blobs.any (fun e => e.1 == n) with
  | true => simp
  | false =>
    simp only [Bool.false_eq_true, if_false, List.filter_append]
    simp [h]

theorem namesFiltered_deleteBlob_of_ne (s : Store) (n : String) (p : String)
    (h : strStartsWith n p = false) :
    (storeNames (deleteBlob s n)).filter (fun m => strStartsWith m p) =
      (storeNames s).filter (fun m => strStartsWith m p) := by
  rw [storeNames_deleteBlob, List.filter_filter]
  apply List.filter_congr
  intro m _
  cases hm : strStartsWith m p with
  | false => simp
  | true =>
    have : (m == n) = false := by
      apply beq_eq_false_iff_ne.mpr
      intro hmn
      rw [hmn] at hm
      rw [hm] at h
      exact absurd h (by simp)
    simp [this]

theorem catPath_not_p (k : PValue) (p : String)
    (hj : ∀ x, strStartsWith (pyJoin "catalogs" x) p = false)
    (he : strStartsWith "" p = false) :
    strStartsWith (catPath k) p = false := by
  cases k with
  | str s => exact hj s
  | int v => exact he
  | bool v => exact he
  | list v => exact he
  | dict v => exact he

theorem listBlobs_delFold (ns : List String) (p : String)
    (hj : ∀ x, strStartsWith (pyJoin "catalogs" x) p = false) :
    ∀ st : Store, listBlobs (delFold st ns) p = listBlobs st p := by
  induction ns with
  | nil => intro st; rfl
  | cons n t ih =>
    intro st
    simp only [delFold, List.foldl_cons]
    rw [show (List.foldl (fun acc n => deleteBlob acc (pyJoin "catalogs" n))
        (deleteBlob st (pyJoin "catalogs" n)) t) =
      delFold (deleteBlob st (pyJoin "catalogs" n)) t from rfl]
    rw [ih (deleteBlob st (pyJoin "catalogs" n))]
    exact listBlobs_deleteBlob_of_ne st (pyJoin "catalogs" n) p (hj n)

theorem namesFiltered_delFold (ns : List String) (p : String)
    (hj : ∀ x, strStartsWith (pyJoin "catalogs" x) p = false) :
    ∀ st : Store,
    (storeNames (delFold st ns)).filter (fun m => strStartsWith m p) =
      (storeNames st).filter (fun m => strStartsWith m p) := by
  induction ns with
  | nil => intro st; rfl
  | cons n t ih =>
    intro st
    simp only [delFold, List.foldl_cons]
    rw [show (List.foldl (fun acc n => deleteBlob acc (pyJoin "catalogs" n))
        (deleteBlob st (pyJoin "catalogs" n)) t) =
      delFold (deleteBlob st (pyJoin "catalogs" n)) t from rfl]
    rw [ih (deleteBlob st (pyJoin "catalogs" n))]
    exact namesFiltered_deleteBlob_of_ne st (pyJoin "catalogs" n) p (hj n)

theorem listBlobs_writeFold (cats : Catalogs) (p : String)
    (hj : ∀ x, strStartsWith (pyJoin "catalogs" x) p = false)
    (he : strStartsWith "" p = false) :
    ∀ st : Store, listBlobs (writeFold st cats) p = listBlobs st p := by
  induction cats with
  | nil => intro st; rfl
  | cons e t ih =>
    intro st
    simp only [writeFold, List.foldl_cons]
    rw [show (List.foldl (fun acc e => putBlob acc (catPath e.1) (serializeCatalog e.2))
        (putBlob st (catPath e.1) (serializeCatalog e.2)) t) =
      writeFold (putBlob st (catPath e.1) (serializeCatalog e.2)) t from rfl]
    rw [ih (putBlob st (catPath e.1) (serializeCatalog e.2))]
    exact listBlobs_putBlob_of_ne st (catPath e.1) (serializeCatalog e.2) p
      (catPath_not_p e.1 p hj he)

theorem namesFiltered_writeFold (cats : Catalogs) (p : String)
    (hj : ∀ x, strStartsWith (pyJoin "catalogs" x) p = false)
    (he : strStartsWith "" p = false) :
    ∀ st : Store,
    (storeNames (writeFold st cats)).filter (fun m => strStartsWith m p) =
      (storeNames st).filter (fun m => strStartsWith m p) := by
  induction cats with
  | nil => intro st; rfl
  | cons e t ih =>
    intro st
    simp only [writeFold, List.foldl_cons]
    rw [show (List.foldl (fun acc e => putBlob acc (catPath e.1) (serializeCatalog e.2))
        (putBlob st (catPath e.1) (serializeCatalog e.2)) t) =
      writeFold (putBlob st (catPath e.1) (serializeCatalog e.2)) t from rfl]
    rw [ih (putBlob st (catPath e.1) (serializeCatalog e.2))]
    exact namesFiltered_putBlob_of_ne st (catPath e.1) (serializeCatalog e.2) p
      (catPath_not_p e.1 p hj he)

/-- Decomposition of a successful `makecatalogs` run with a live sink into
its stages: the computed catalogs (all keys strings), the error report, and
the final store as delete-fold, write-fold and optional manifest write. -/
theorem makecatalogs_ok_decomp (s : Store) (opts : Options) (s1 : Store) (e1 : List String)
    (h : makecatalogs s opts true = .ok (s1, e1)) :
    ∃ cats pm, buildCatalogs s opts true = .ok (cats, pm) ∧
      (∀ e ∈ cats, ∃ k, e.1 = PValue.str k) ∧
      e1 = (iconsStage s).2 ++ pm ++ [] ∧
      (((iconsStage s).1.isEmpty = true ∧
        s1 = writeFold (delFold s (catalogDeletionList s cats)) cats) ∨
       ((iconsStage s).1.isEmpty = false ∧ ∃ bytes,
        serializeIcons (iconsStage s).1 = .ok bytes ∧
        s1 = putBlob (writeFold (delFold s (catalogDeletionList s cats)) cats)
          "icons/_icon_hashes.plist" bytes)) := by
  simp only [makecatalogs] at h
  cases hb : buildCatalogs s opts true with
  | error e => rw [hb] at h; exact absurd h (by simp)
  | ok cr =>
    obtain ⟨cats, pm⟩ := cr
    rw [hb] at h
    simp only [deleteLoop_ok] at h
    cases hw : writeLoop true (delFold s (catalogDeletionList s cats)) cats with
    | error e => rw [hw] at h; exact absurd h (by simp)
    | ok wr =>
      obtain ⟨sB, wm⟩ := wr
      rw [hw] at h
      obtain ⟨hwm, hsB, hkeys⟩ := writeLoop_ok_char cats _ sB wm hw
      refine ⟨cats, pm, rfl, hkeys, ?_⟩
      cases hic : (iconsStage s).1.isEmpty with
      | true =>
        simp only [hic, if_true] at h
        have h1 := Except.ok.inj h
        have hA : sB = s1 := congrArg Prod.fst h1
        have hB : (iconsStage s).2 ++ pm ++ wm = e1 := congrArg Prod.snd h1
        exact ⟨by rw [← hB, hwm], Or.inl ⟨rfl, by rw [← hA, hsB]⟩⟩
      | false =>
        simp only [hic, Bool.false_eq_true, if_false] at h
        cases hsi : serializeIcons (iconsStage s).1 with
        | error e => rw [hsi] at h; exact absurd h (by simp)
        | ok bytes =>
          rw [hsi] at h
          simp only [Bool.true_eq_false, if_false] at h
          have h1 := Except.ok.inj h
          have hA : putBlob sB "icons/_icon_hashes.plist" bytes = s1 := congrArg Prod.fst h1
          have hB : (iconsStage s).2 ++ pm ++ wm = e1 := congrArg Prod.snd h1
          refine ⟨by rw [← hB, hwm], Or.inr ⟨rfl, bytes, rfl, ?_⟩⟩
          rw [← hA, hsB]

theorem itemlist_congr (s1 s2 : Store) (kind : String)
    (h : (storeNames s1).filter
          (fun m => strStartsWith m (if kind == "pkgs" then "pkgs/" else kind)) =
        (storeNames s2).filter
          (fun m => strStartsWith m (if kind == "pkgs" then "pkgs/" else kind))) :
    itemlist s1 kind = itemlist s2 kind := by
  simp only [itemlist]
  exact congrArg (List.map _) h

theorem process_icon_hash_manifest (c : BlobContent) :
    process_icon_hash ("icons/_icon_hashes.plist", c) = (none, none, none) := rfl

theorem collectIcons_append_noop (l : List (Option String × Option String × Option String)) :
    ∀ (a : List (String × Option String)) (e : List String),
    collectIcons a e (l ++ [(none, none, none)]) = collectIcons a e l := by
  induction l with
  | nil =>
    intro a e
    simp only [List.nil_append, collectIcons, errMsgList, List.append_nil]
  | cons t rest ih =>
    intro a e
    obtain ⟨n?, h?, e?⟩ := t
    cases n? with
    | none => simp only [List.cons_append, collectIcons]; exact ih _ _
    | some n =>
      cases hn : n != "" with
      | true => simp only [List.cons_append, collectIcons, hn, if_true]; exact ih _ _
      | false =>
        simp only [List.cons_append, collectIcons, hn, Bool.false_eq_true, if_false]
        exact ih _ _

theorem filter_map_namefix (l : List (String × BlobContent))
    (f : String × BlobContent → String × BlobContent)
    (hf : ∀ e, (f e).1 = e.1) (p : String) :
    (l.map f).filter (fun e => strStartsWith e.1 p) =
      (l.filter (fun e => strStartsWith e.1 p)).map f := by
  induction l with
  | nil => rfl
  | cons e t ih =>
    simp only [List.map_cons, List.filter_cons, hf e]
    cases hp : strStartsWith e.1 p with
    | true => simpa using congrArg (fun l => f e :: l) ih
    | false => simpa using ih

theorem iconsStage_putBlob_manifest (st : Store) (b : Bytes) :
    iconsStage (putBlob st "icons/_icon_hashes.plist" b) = iconsStage st := by
  simp only [iconsStage, listBlobs, putBlob]
  cases hex : st.blobs.any (fun e => e.1 == "icons/_icon_hashes.plist") with
  | true =>
    simp only [if_true]
    rw [filter_map_namefix st.blobs
      (fun e => if e.1 == "icons/_icon_hashes.plist"
        then ("icons/_icon_hashes.plist", BlobContent.ok b) else e)
      (fun e => by by_cases h : e.1 = "icons/_icon_hashes.plist" <;> simp [h]) "icons"]
    rw [List.map_map]
    congr 1
    apply List.map_congr_left
    intro e _
    by_cases h : e.1 = "icons/_icon_hashes.plist"
    · have hb : (e.1 == "icons/_icon_hashes.plist") = true := beq_iff_eq.mpr h
      obtain ⟨nm, c⟩ := e
      simp only at h hb
      subst h
      simp [Function.comp, hb, process_icon_hash_manifest]
    · have hb : (e.1 == "icons/_icon_hashes.plist") = false := beq_eq_false_iff_ne.mpr h
      simp [Function.comp, hb]
  | false =>
    simp only [Bool.false_eq_true, if_false, List.filter_append]
    have hone : List.filter (fun e => strStartsWith e.1 "icons")
        [("icons/_icon_hashes.plist", BlobContent.ok b)] =
        [("icons/_icon_hashes.plist", BlobContent.ok b)] := rfl
    rw [hone, List.map_append]
    simp only [List.map_cons, List.map_nil, process_icon_hash_manifest]
    exact collectIcons_append_noop _ [] []

/-- Well-formedness of the prior store for the idempotence claim: every
blob filed under the `catalogs` kind has the shape `catalogs/<rest>` with a
relative rest (no name like `catalogsX`, `catalogs` itself, or
`catalogs//x`), which is what the engine itself publishes. -/
def SaneStore (s : Store) : Prop :=
  ∀ m ∈ storeNames s, strStartsWith m "catalogs" = true →
    ∃ rest, m = "catalogs/" ++ rest ∧ strStartsWith rest "/" = false

theorem isPrefixOf_append_self (l t : List Char) : List.isPrefixOf l (l ++ t) = true := by
  induction l with
  | nil => simp [List.isPrefixOf]
  | cons a as ih => simp [List.isPrefixOf, ih]

theorem relpath_catalogs_append (r : String) :
    relpath ("catalogs/" ++ r) "catalogs" = r := by
  have hne : ("catalogs/" ++ r) ≠ "catalogs" := by
    intro h
    have hd := congrArg String.data h
    rw [String.data_append] at hd
    have hl := congrArg List.length hd
    simp at hl
  have hbeq : (("catalogs/" ++ r) == "catalogs") = false := beq_eq_false_iff_ne.mpr hne
  have hpre : strStartsWith ("catalogs/" ++ r) ("catalogs" ++ "/") = true := by
    have : ("catalogs" ++ "/") = "catalogs/" := rfl
    rw [this]
    simp only [strStartsWith, String.data_append]
    exact isPrefixOf_append_self _ _
  have hends : strEndsWith "catalogs" "/" = false := by decide
  simp only [relpath, hends, Bool.false_eq_true, if_false, hbeq, hpre, if_true]
  simp only [strDrop, String.data_append]
  have hlen : ("catalogs".length + 1) = ("catalogs/".data).length := by decide
  rw [hlen, List.drop_left]

theorem pyJoin_catalogs_eq (r : String) (h : strStartsWith r "/" = false) :
    pyJoin "catalogs" r = "catalogs/" ++ r := by
  simp only [pyJoin, h, Bool.false_eq_true, if_false]
  rfl

theorem startsWith_abs_not_catalogs (k : String) (h : strStartsWith k "/" = true) :
    strStartsWith k "catalogs" = false := by
  obtain ⟨t, ht⟩ := startsWith_slash_data k h
  simp only [strStartsWith, ht]
  exact isPrefixOf_cons_ne 'c' '/' _ _ (by decide)

theorem catMember_of_mem (cats : Catalogs) (e : PValue × List PkgInfo)
    (he : e ∈ cats) : catMember cats e.1 = true := by
  simp only [catMember]
  rw [List.any_eq_true]
  exact ⟨e, he, beq_self_eq_true e.1⟩

theorem mem_storeNames_delFold (ns : List String) :
    ∀ (st : Store) (m : String), m ∈ storeNames (delFold st ns) →
    m ∈ storeNames st ∧ ∀ x ∈ ns, m ≠ pyJoin "catalogs" x := by
  induction ns with
  | nil =>
    intro st m hm
    exact ⟨hm, fun x hx => absurd hx (List.not_mem_nil x)⟩
  | cons n t ih =>
    intro st m hm
    rw [show delFold st (n :: t) = delFold (deleteBlob st (pyJoin "catalogs" n)) t
      from rfl] at hm
    obtain ⟨h1, h2⟩ := ih (deleteBlob st (pyJoin "catalogs" n)) m hm
    rw [storeNames_deleteBlob] at h1
    have h3 := List.mem_filter.mp h1
    refine ⟨h3.1, fun x hx => ?_⟩
    rcases List.mem_cons.mp hx with h4 | h4
    · intro hmx
      rw [h4] at hmx
      have := h3.2
      rw [hmx] at this
      simp at this
    · exact h2 x h4

theorem mem_storeNames_putBlob_elim (st : Store) (n : String) (b : Bytes) (m : String)
    (hm : m ∈ storeNames (putBlob st n b)) :
    m ∈ storeNames st ∨ m = n := by
  rw [storeNames_putBlob] at hm
  cases hex : st.blobs.any (fun e => e.1 == n) with
  | true =>
    rw [hex] at hm
    simp only [eq_self_iff_true, if_true] at hm
    exact Or.inl hm
  | false =>
    rw [hex] at hm
    simp only [Bool.false_eq_true, if_false] at hm
    rcases List.mem_append.mp hm with h | h
    · exact Or.inl h
    · exact Or.inr (List.mem_singleton.mp h)

theorem mem_storeNames_writeFold_elim (cats : Catalogs) :
    ∀ (st : Store) (m : String), m ∈ storeNames (writeFold st cats) →
    m ∈ storeNames st ∨ ∃ e ∈ cats, m = catPath e.1 := by
  induction cats with
  | nil => intro st m hm; exact Or.inl hm
  | cons e t ih =>
    intro st m hm
    rw [show writeFold st (e :: t) =
      writeFold (putBlob st (catPath e.1) (serializeCatalog e.2)) t from rfl] at hm
    rcases ih _ m hm with h1 | ⟨e2, he2, hp⟩
    · rcases mem_storeNames_putBlob_elim st _ _ m h1 with h2 | h2
      · exact Or.inl h2
      · exact Or.inr ⟨e, List.mem_cons_self e t, h2⟩
    · exact Or.inr ⟨e2, List.mem_cons_of_mem e he2, hp⟩

/-- Every catalogs-prefixed blob name of the store left by one run names a
catalog of the computed set: survivors were kept because their name is a
key, and fresh writes are keys by construction. -/
theorem catalogs_names_member (s : Store) (cats : Catalogs)
    (hs : SaneStore s)
    (hkeys : ∀ e ∈ cats, ∃ k, e.1 = PValue.str k) :
    ∀ m ∈ storeNames (writeFold (delFold s (catalogDeletionList s cats)) cats),
      strStartsWith m "catalogs" = true →
      catMember cats (PValue.str (relpath m "catalogs")) = true := by
  intro m hm hpre
  rcases mem_storeNames_writeFold_elim cats _ m hm with h1 | ⟨e, he, hp⟩
  · obtain ⟨hmem, hdel⟩ := mem_storeNames_delFold _ s m h1
    obtain ⟨rest, hrest, habs⟩ := hs m hmem hpre
    subst hrest
    rw [relpath_catalogs_append]
    by_contra hnm
    have hnm2 : catMember cats (PValue.str rest) = false := by
      cases hc : catMember cats (PValue.str rest) with
      | true => exact absurd hc hnm
      | false => rfl
    have hin : rest ∈ catalogDeletionList s cats := by
      simp only [catalogDeletionList]
      rw [List.mem_filter]
      refine ⟨?_, by simp [hnm2]⟩
      show rest ∈ ((storeNames s).filter
        (fun n => strStartsWith n "catalogs")).map (fun n => relpath n "catalogs")
      exact List.mem_map.mpr ⟨"catalogs/" ++ rest,
        List.mem_filter.mpr ⟨hmem, hpre⟩, relpath_catalogs_append rest⟩
    exact (hdel rest hin) (pyJoin_catalogs_eq rest habs).symm
  · obtain ⟨k, hk⟩ := hkeys e he
    rw [hk] at hp
    simp only [catPath] at hp
    cases habs : strStartsWith k "/" with
    | true =>
      rw [hp] at hpre
      simp only [pyJoin, habs, if_true] at hpre
      rw [startsWith_abs_not_catalogs k habs] at hpre
      exact absurd hpre (by simp)
    | false =>
      rw [pyJoin_catalogs_eq k habs] at hp
      subst hp
      rw [relpath_catalogs_append]
      have hmm := catMember_of_mem cats e he
      rw [hk] at hmm
      exact hmm

/-- The second run selects no catalogs for deletion, with or without the
manifest write at the end of the first run. -/
theorem catalogDeletionList_run_empty (s : Store) (cats : Catalogs) (s1 : Store)
    (hs : SaneStore s)
    (hkeys : ∀ e ∈ cats, ∃ k, e.1 = PValue.str k)
    (hcase : s1 = writeFold (delFold s (catalogDeletionList s cats)) cats ∨
      ∃ bytes, s1 = putBlob (writeFold (delFold s (catalogDeletionList s cats)) cats)
        "icons/_icon_hashes.plist" bytes) :
    catalogDeletionList s1 cats = [] := by
  have hchar : ∀ m ∈ storeNames s1, strStartsWith m "catalogs" = true →
      catMember cats (PValue.str (relpath m "catalogs")) = true := by
    rcases hcase with h | ⟨bytes, h⟩
    · rw [h]; exact catalogs_names_member s cats hs hkeys
    · rw [h]
      intro m hm hpre
      rcases mem_storeNames_putBlob_elim _ _ _ m hm with h1 | h1
      · exact catalogs_names_member s cats hs hkeys m h1 hpre
      · rw [h1] at hpre
        exact absurd hpre (by decide)
  simp only [catalogDeletionList]
  rw [List.filter_eq_nil_iff]
  intro n hn
  simp only [itemlist] at hn
  have hif : (if ("catalogs" == "pkgs") = true then "pkgs/" else "catalogs") =
      "catalogs" := rfl
  rw [hif] at hn
  obtain ⟨m, hmf, hrel⟩ := List.mem_map.mp hn
  have hmem := List.mem_filter.mp hmf
  have hres := hchar m hmem.1 hmem.2
  rw [hrel] at hres
  simp [hres]

/-- The blob `n` exists and every entry carrying that name holds exactly
the bytes `b`. -/
def contentAt (st : Store) (n : String) (b : Bytes) : Prop :=
  (st.blobs.any (fun e => e.1 == n)) = true ∧
  ∀ e ∈ st.blobs, e.1 = n → e.2 = BlobContent.ok b

theorem putBlob_sets (st : Store) (n : String) (b : Bytes) :
    contentAt (putBlob st n b) n b := by
  simp only [putBlob, contentAt]
  cases hex : st.blobs.any (fun e => e.1 == n) with
  | true =>
    simp only [eq_self_iff_true, if_true]
    obtain ⟨e, he, hpe⟩ := List.any_eq_true.mp hex
    constructor
    · rw [List.any_eq_true]
      refine ⟨(n, BlobContent.ok b), List.mem_map.mpr ⟨e, he, by simp [hpe]⟩, by simp⟩
    · intro e2 he2 hn2
      obtain ⟨e3, he3, hf3⟩ := List.mem_map.mp he2
      by_cases h3 : e3.1 = n
      · rw [← hf3]; simp [beq_iff_eq.mpr h3]
      · rw [← hf3] at hn2 ⊢
        simp only [beq_eq_false_iff_ne.mpr h3, Bool.false_eq_true, if_false] at hn2 ⊢
        exact absurd hn2 h3
  | false =>
    simp only [Bool.false_eq_true, if_false]
    constructor
    · simp
    · intro e2 he2 hn2
      rcases List.mem_append.mp he2 with h | h
      · have := List.any_eq_false.mp hex e2 h
        exact absurd (beq_iff_eq.mpr hn2) (by simpa using this)
      · rw [List.mem_singleton.mp h]

theorem putBlob_preserves_contentAt (st : Store) (n : String) (b : Bytes)
    (m : String) (c : Bytes) (hne : m ≠ n) (h : contentAt st m c) :
    contentAt (putBlob st n b) m c := by
  obtain ⟨h1, h2⟩ := h
  simp only [putBlob, contentAt]
  cases hex : st.blobs.any (fun e => e.1 == n) with
  | true =>
    simp only [eq_self_iff_true, if_true]
    obtain ⟨e, he, hpe⟩ := List.any_eq_true.mp h1
    constructor
    · rw [List.any_eq_true]
      have hen : (e.1 == n) = false := by
        apply beq_eq_false_iff_ne.mpr
        intro hh
        exact hne ((beq_iff_eq.mp hpe) ▸ hh)
      exact ⟨e, List.mem_map.mpr ⟨e, he, by simp [hen]⟩, hpe⟩
    · intro e2 he2 hm2
      obtain ⟨e3, he3, hf3⟩ := List.mem_map.mp he2
      by_cases h3 : e3.1 = n
      · rw [← hf3] at hm2
        simp only [beq_iff_eq.mpr h3, if_true] at hm2
        exact absurd hm2.symm hne
      · rw [← hf3] at hm2 ⊢
        simp only [beq_eq_false_iff_ne.mpr h3, Bool.false_eq_true, if_false] at hm2 ⊢
        exact h2 e3 he3 hm2
  | false =>
    simp only [Bool.false_eq_true, if_false]
    constructor
    · rw [List.any_append, h1]; rfl
    · intro e2 he2 hm2
      rcases List.mem_append.mp he2 with hh | hh
      · exact h2 e2 hh hm2
      · rw [List.mem_singleton.mp hh] at hm2
        exact absurd hm2 (fun hh2 => hne hh2.symm)

theorem putBlob_id (st : Store) (n : String) (b : Bytes) (h : contentAt st n b) :
    putBlob st n b = st := by
  obtain ⟨h1, h2⟩ := h
  simp only [putBlob, h1, if_true]
  have : st.blobs.map (fun e => if e.1 == n then (n, BlobContent.ok b) else e) =
      st.blobs := by
    have hmap := List.map_congr_left (l := st.blobs)
      (f := fun e => if e.1 == n then (n, BlobContent.ok b) else e) (g := id) ?_
    · rw [hmap, List.map_id]
    · intro e he
      by_cases h3 : e.1 = n
      · have hc := h2 e he h3
        simp only [beq_iff_eq.mpr h3, if_true, id]
        rw [← h3, ← hc]
      · simp [beq_eq_false_iff_ne.mpr h3]
  rw [this]

theorem writeFold_preserves_contentAt (cats : Catalogs) :
    ∀ (st : Store) (n : String) (b : Bytes),
    (∀ e ∈ cats, catPath e.1 ≠ n) → contentAt st n b →
    contentAt (writeFold st cats) n b := by
  induction cats with
  | nil => intro st n b _ h; exact h
  | cons e t ih =>
    intro st n b hne h
    rw [show writeFold st (e :: t) =
      writeFold (putBlob st (catPath e.1) (serializeCatalog e.2)) t from rfl]
    exact ih _ n b (fun e2 he2 => hne e2 (List.mem_cons_of_mem e he2))
      (putBlob_preserves_contentAt st (catPath e.1) (serializeCatalog e.2) n b
        (fun hh => hne e (List.mem_cons_self e t) hh.symm) h)

theorem writeFold_contentAt (cats : Catalogs)
    (hnd : (cats.map (fun e => catPath e.1)).Nodup) :
    ∀ st : Store, ∀ e ∈ cats, contentAt (writeFold st cats) (catPath e.1)
      (serializeCatalog e.2) := by
  induction cats with
  | nil => intro st e he; exact absurd he (List.not_mem_nil e)
  | cons e0 t ih =>
    intro st e he
    rw [List.map_cons, List.nodup_cons] at hnd
    rw [show writeFold st (e0 :: t) =
      writeFold (putBlob st (catPath e0.1) (serializeCatalog e0.2)) t from rfl]
    rcases List.mem_cons.mp he with h1 | h1
    · subst h1
      exact writeFold_preserves_contentAt t _ _ _
        (fun e2 he2 hh => hnd.1 (hh ▸ List.mem_map.mpr ⟨e2, he2, rfl⟩))
        (putBlob_sets st (catPath e.1) (serializeCatalog e.2))
    · exact ih hnd.2 _ e h1

theorem writeFold_id (cats : Catalogs) :
    ∀ st : Store,
    (∀ e ∈ cats, contentAt st (catPath e.1) (serializeCatalog e.2)) →
    writeFold st cats = st := by
  induction cats with
  | nil => intro st _; rfl
  | cons e t ih =>
    intro st h
    rw [show writeFold st (e :: t) =
      writeFold (putBlob st (catPath e.1) (serializeCatalog e.2)) t from rfl]
    rw [putBlob_id st _ _ (h e (List.mem_cons_self e t))]
    exact ih st (fun e2 he2 => h e2 (List.mem_cons_of_mem e he2))

theorem strExt (a b : String) (h : a.data = b.data) : a = b := by
  cases a; cases b
  exact congrArg String.mk h

theorem catPath_inj_str (k k2 : String)
    (h : catPath (PValue.str k) = catPath (PValue.str k2)) : k = k2 := by
  simp only [catPath, pyJoin] at h
  cases h1 : strStartsWith k "/" with
  | true =>
    cases h2 : strStartsWith k2 "/" with
    | true => simpa [h1, h2] using h
    | false =>
      rw [h1, h2] at h
      simp only [if_true, Bool.false_eq_true, if_false] at h
      obtain ⟨t, ht⟩ := startsWith_slash_data k h1
      have hd := congrArg String.data h
      rw [ht, String.data_append, String.data_append] at hd
      exact absurd (List.head_eq_of_cons_eq hd) (by decide)
  | false =>
    cases h2 : strStartsWith k2 "/" with
    | true =>
      rw [h1, h2] at h
      simp only [if_true, Bool.false_eq_true, if_false] at h
      obtain ⟨t, ht⟩ := startsWith_slash_data k2 h2
      have hd := congrArg String.data h
      rw [ht, String.data_append, String.data_append] at hd
      exact absurd (List.head_eq_of_cons_eq hd.symm) (by decide)
    | false =>
      rw [h1, h2] at h
      simp only [Bool.false_eq_true, if_false] at h
      have hd := congrArg String.data h
      simp only [String.data_append] at hd
      exact strExt k k2 (List.append_cancel_left hd)

theorem keys_catAppend (cats : Catalogs) (v : PValue) (d : PkgInfo) :
    (catAppend cats v d).map (fun e => e.1) = cats.map (fun e => e.1) := by
  simp only [catAppend, List.map_map]
  apply List.map_congr_left
  intro e _
  by_cases h : e.1 = v <;> simp [Function.comp, h]

theorem nodup_keys_catAdd (cats : Catalogs) (v : PValue) (d : PkgInfo)
    (h : (cats.map (fun e => e.1)).Nodup) :
    ((catAdd cats v d).map (fun e => e.1)).Nodup := by
  simp only [catAdd]
  cases hm : catMember cats v with
  | true =>
    simp only [if_true]
    rw [keys_catAppend]
    exact h
  | false =>
    simp only [Bool.false_eq_true, if_false, List.map_append, List.map_cons, List.map_nil]
    rw [List.nodup_append]
    refine ⟨h, List.nodup_singleton v, ?_⟩
    intro a ha hb
    rw [List.mem_singleton.mp hb] at ha
    obtain ⟨e, he, hfe⟩ := List.mem_map.mp ha
    simp only [catMember] at hm
    have hne := List.any_eq_false.mp hm e he
    rw [hfe] at hne
    simp at hne

theorem nodup_keys_addToCatalogs (ref : String) (d : PkgInfo) :
    ∀ (names : List PValue) (cats : Catalogs),
    (cats.map (fun e => e.1)).Nodup →
    ((addToCatalogs ref d names cats).1.map (fun e => e.1)).Nodup := by
  intro names
  induction names with
  | nil => intro cats h; exact h
  | cons v vs ih =>
    intro cats h
    cases ht : truthy v with
    | false =>
      simp only [addToCatalogs, ht, Bool.not_false, if_true]
      exact ih cats h
    | true =>
      simp only [addToCatalogs, ht, Bool.not_true, Bool.false_eq_true, if_false]
      exact ih (catAdd cats v d) (nodup_keys_catAdd cats v d h)

theorem nodup_keys_procRecord (output : Bool) (ref : String) (d : PkgInfo)
    (cats c2 : Catalogs) (m : List String)
    (h : procRecord output ref d cats = .ok (c2, m))
    (hnd : (cats.map (fun e => e.1)).Nodup) :
    (c2.map (fun e => e.1)).Nodup := by
  cases output with
  | false => simp [procRecord] at h
  | true =>
    simp only [procRecord, Bool.true_eq_false, if_false] at h
    cases hit : pyIter (lookupKey d "catalogs") with
    | error e => simp only [hit] at h; exact absurd h (by simp)
    | ok names =>
      simp only [hit] at h
      cases hsc : scanDup ((addToCatalogs ref d names
          (catAppend cats (PValue.str "all") d)).1.map (fun e => e.1)) with
      | error e => simp only [hsc] at h; exact absurd h (by simp)
      | ok dups =>
        simp only [hsc] at h
        have hc2 : c2 = (addToCatalogs ref d names
            (catAppend cats (PValue.str "all") d)).1 := by
          have := congrArg (fun x => match x with
            | Except.ok (c, _) => c
            | _ => ([] : Catalogs)) h
          simpa using this.symm
        rw [hc2]
        apply nodup_keys_addToCatalogs
        rw [keys_catAppend]
        exact hnd

theorem nodup_keys_procHead (opts : Options) (pl : List String) (t : PTuple)
    (cats c2 : Catalogs) (m : List String)
    (h : procHead opts true pl t cats = .ok (c2, m))
    (hnd : (cats.map (fun e => e.1)).Nodup) :
    (c2.map (fun e => e.1)).Nodup := by
  obtain ⟨r?, p?, e?⟩ := t
  cases p? with
  | none =>
    simp only [procHead] at h
    have hc : c2 = cats := by
      have := congrArg (fun x => match x with
        | Except.ok (c, _) => c
        | _ => ([] : Catalogs)) h
      simpa using this.symm
    rw [hc]; exact hnd
  | some d =>
    cases hde : d.isEmpty with
    | true =>
      simp only [procHead, hde, if_true] at h
      have hc : c2 = cats := by
        have := congrArg (fun x => match x with
          | Except.ok (c, _) => c
          | _ => ([] : Catalogs)) h
        simpa using this.symm
      rw [hc]; exact hnd
    | false =>
      simp only [procHead, hde, Bool.false_eq_true, if_false] at h
      cases hsk : opts.skip_payload_check with
      | true =>
        simp only [hsk, if_true] at h
        cases hpr : procRecord true ((r?).getD "") d cats with
        | error e => simp only [hpr] at h; exact absurd h (by simp)
        | ok r =>
          simp only [hpr] at h
          have hc : c2 = r.1 := by
            have := congrArg (fun x => match x with
              | Except.ok (c, _) => c
              | _ => ([] : Catalogs)) h
            simpa using this.symm
          rw [hc]
          exact nodup_keys_procRecord true _ d cats r.1 r.2 (by rw [hpr]) hnd
      | false =>
        simp only [hsk, Bool.false_eq_true, if_false, Bool.true_eq_false] at h
        cases hv : (verify_pkginfo ((r?).getD "") d pl).1 with
        | false =>
          cases hf : opts.force with
          | true =>
            simp only [hv, hf, Bool.not_false, Bool.not_true, Bool.and_false] at h
            simp only [Bool.false_eq_true, if_false] at h
            cases hpr : procRecord true ((r?).getD "") d cats with
            | error e => simp only [hpr] at h; exact absurd h (by simp)
            | ok r =>
              simp only [hpr] at h
              have hc : c2 = r.1 := by
                have := congrArg (fun x => match x with
                  | Except.ok (c, _) => c
                  | _ => ([] : Catalogs)) h
                simpa using this.symm
              rw [hc]
              exact nodup_keys_procRecord true _ d cats r.1 r.2 (by rw [hpr]) hnd
          | false =>
            simp only [hv, hf, Bool.not_false, Bool.and_self, if_true] at h
            have hc : c2 = cats := by
              have := congrArg (fun x => match x with
                | Except.ok (c, _) => c
                | _ => ([] : Catalogs)) h
              simpa using this.symm
            rw [hc]; exact hnd
        | true =>
          simp only [hv, Bool.not_true, Bool.false_and, Bool.false_eq_true, if_false] at h
          cases hpr : procRecord true ((r?).getD "") d cats with
          | error e => simp only [hpr] at h; exact absurd h (by simp)
          | ok r =>
            simp only [hpr] at h
            have hc : c2 = r.1 := by
              have := congrArg (fun x => match x with
                | Except.ok (c, _) => c
                | _ => ([] : Catalogs)) h
              simpa using this.symm
            rw [hc]
            exact nodup_keys_procRecord true _ d cats r.1 r.2 (by rw [hpr]) hnd

theorem nodup_keys_procLoop (opts : Options) (pl : List String) :
    ∀ (tuples : List PTuple) (cats c2 : Catalogs) (m : List String),
    procLoop opts true pl tuples cats = .ok (c2, m) →
    (cats.map (fun e => e.1)).Nodup →
    (c2.map (fun e => e.1)).Nodup := by
  intro tuples
  induction tuples with
  | nil =>
    intro cats c2 m h hnd
    simp only [procLoop] at h
    have hc : c2 = cats := by
      have := congrArg (fun x => match x with
        | Except.ok (c, _) => c
        | _ => ([] : Catalogs)) h
      simpa using this.symm
    rw [hc]; exact hnd
  | cons t rest ih =>
    intro cats c2 m h hnd
    simp only [procLoop] at h
    cases hh : procHead opts true pl t cats with
    | error e => simp only [hh] at h; exact absurd h (by simp)
    | ok r =>
      simp only [hh] at h
      cases hrest : procLoop opts true pl rest r.1 with
      | error e => simp only [hrest] at h; exact absurd h (by simp)
      | ok rr =>
        simp only [hrest] at h
        have hc : c2 = rr.1 := by
          have := congrArg (fun x => match x with
            | Except.ok (c, _) => c
            | _ => ([] : Catalogs)) h
          simpa using this.symm
        rw [hc]
        exact ih r.1 rr.1 rr.2 (by rw [hrest])
          (nodup_keys_procHead opts pl t cats r.1 r.2 (by rw [hh]) hnd)

theorem buildCatalogs_nodup_keys (s : Store) (opts : Options)
    (cats : Catalogs) (pm : List String)
    (h : buildCatalogs s opts true = .ok (cats, pm)) :
    (cats.map (fun e => e.1)).Nodup := by
  simp only [buildCatalogs] at h
  cases hp : processAll (listBlobs s "pkgsinfo") with
  | error e => rw [hp] at h; exact absurd h (by simp)
  | ok tuples =>
    rw [hp] at h
    exact nodup_keys_procLoop opts (itemlist s "pkgs") tuples _ cats pm h (by simp)

theorem nodup_catPaths (cats : Catalogs)
    (hkeys : ∀ e ∈ cats, ∃ k, e.1 = PValue.str k)
    (hnd : (cats.map (fun e => e.1)).Nodup) :
    (cats.map (fun e => catPath e.1)).Nodup := by
  have : cats.map (fun e => catPath e.1) = (cats.map (fun e => e.1)).map catPath := by
    rw [List.map_map]
    rfl
  rw [this]
  apply List.Nodup.map_on ?_ hnd
  intro x hx y hy hxy
  obtain ⟨ex, hex, hfx⟩ := List.mem_map.mp hx
  obtain ⟨ey, hey, hfy⟩ := List.mem_map.mp hy
  obtain ⟨kx, hkx⟩ := hkeys ex hex
  obtain ⟨ky, hky⟩ := hkeys ey hey
  rw [← hfx, hkx] at hxy ⊢
  rw [← hfy, hky] at hxy ⊢
  rw [catPath_inj_str kx ky hxy]

/-- The first run leaves the pkgsinfo blobs untouched. -/
theorem listBlobs_pkgsinfo_inv (s : Store) (dl : List String) (cats : Catalogs) :
    listBlobs (writeFold (delFold s dl) cats) "pkgsinfo" = listBlobs s "pkgsinfo" := by
  rw [listBlobs_writeFold cats "pkgsinfo" pyJoin_catalogs_not_pkgsinfo (by decide),
    listBlobs_delFold dl "pkgsinfo" pyJoin_catalogs_not_pkgsinfo]

theorem namesFiltered_pkgs_inv (s : Store) (dl : List String) (cats : Catalogs) :
    (storeNames (writeFold (delFold s dl) cats)).filter
        (fun m => strStartsWith m "pkgs/") =
      (storeNames s).filter (fun m => strStartsWith m "pkgs/") := by
  rw [namesFiltered_writeFold cats "pkgs/" pyJoin_catalogs_not_pkgsSlash (by decide),
    namesFiltered_delFold dl "pkgs/" pyJoin_catalogs_not_pkgsSlash]

theorem iconsStage_fold_inv (s : Store) (dl : List String) (cats : Catalogs) :
    iconsStage (writeFold (delFold s dl) cats) = iconsStage s := by
  simp only [iconsStage]
  rw [listBlobs_writeFold cats "icons" pyJoin_catalogs_not_icons (by decide),
    listBlobs_delFold dl "icons" pyJoin_catalogs_not_icons]

/-- `buildCatalogs` only looks at the pkgsinfo blobs and the pkgs name
list, so the second run recomputes exactly the first run's catalogs. -/
theorem buildCatalogs_inv (s s1 : Store) (opts : Options)
    (hpi : listBlobs s1 "pkgsinfo" = listBlobs s "pkgsinfo")
    (hpk : (storeNames s1).filter (fun m => strStartsWith m "pkgs/") =
      (storeNames s).filter (fun m => strStartsWith m "pkgs/")) :
    buildCatalogs s1 opts true = buildCatalogs s opts true := by
  have hil : itemlist s1 "pkgs" = itemlist s "pkgs" := by
    simp only [itemlist]
    have hif : (if ("pkgs" == "pkgs") = true then "pkgs/" else "pkgs") = "pkgs/" := rfl
    rw [hif]
    exact congrArg (List.map _) hpk
  simp only [buildCatalogs, hpi, hil]

theorem catPath_ne_manifest (k : PValue) (hk : ∃ k0, k = PValue.str k0) :
    catPath k ≠ "icons/_icon_hashes.plist" := by
  obtain ⟨k0, hk0⟩ := hk
  subst hk0
  intro h
  have hj := pyJoin_catalogs_not_icons k0
  rw [show catPath (PValue.str k0) = pyJoin "catalogs" k0 from rfl] at h
  rw [h] at hj
  have h2 : strStartsWith "icons/_icon_hashes.plist" "icons" = true := by decide
  rw [h2] at hj
  exact absurd hj (by simp)

/-- C9.  Against a sane store (its `catalogs/` blobs have the shape the
engine itself publishes), a second `makecatalogs` run over the store left
by a successful first run returns the very same store and error report -
in particular every catalog object is byte-identical - and its
delete-reconciliation phase selects zero catalogs for deletion. -/
theorem claim9_idempotent_build (s : Store) (opts : Options) (s1 : Store)
    (e1 : List String) (hs : SaneStore s)
    (h1 : makecatalogs s opts true = .ok (s1, e1)) :
    makecatalogs s1 opts true = .ok (s1, e1) ∧
    (∀ cats2 pm2, buildCatalogs s1 opts true = .ok (cats2, pm2) →
      catalogDeletionList s1 cats2 = []) := by
  obtain ⟨cats, pm, hb, hkeys, he1, hcase⟩ := makecatalogs_ok_decomp s opts s1 e1 h1
  have hnk := buildCatalogs_nodup_keys s opts cats pm hb
  have hnp := nodup_catPaths cats hkeys hnk
  have hcase2 : s1 = writeFold (delFold s (catalogDeletionList s cats)) cats ∨
      ∃ bytes, s1 = putBlob (writeFold (delFold s (catalogDeletionList s cats)) cats)
        "icons/_icon_hashes.plist" bytes := by
    rcases hcase with ⟨_, h⟩ | ⟨_, bytes, _, h⟩
    · exact Or.inl h
    · exact Or.inr ⟨bytes, h⟩
  have hpi : listBlobs s1 "pkgsinfo" = listBlobs s "pkgsinfo" := by
    rcases hcase2 with h | ⟨bytes, h⟩
    · rw [h]; exact listBlobs_pkgsinfo_inv s _ cats
    · rw [h, listBlobs_putBlob_of_ne _ _ _ _ (by decide)]
      exact listBlobs_pkgsinfo_inv s _ cats
  have hpk : (storeNames s1).filter (fun m => strStartsWith m "pkgs/") =
      (storeNames s).filter (fun m => strStartsWith m "pkgs/") := by
    rcases hcase2 with h | ⟨bytes, h⟩
    · rw [h]; exact namesFiltered_pkgs_inv s _ cats
    · rw [h, namesFiltered_putBlob_of_ne _ _ _ _ (by decide)]
      exact namesFiltered_pkgs_inv s _ cats
  have hic : iconsStage s1 = iconsStage s := by
    rcases hcase2 with h | ⟨bytes, h⟩
    · rw [h]; exact iconsStage_fold_inv s _ cats
    · rw [h, iconsStage_putBlob_manifest]
      exact iconsStage_fold_inv s _ cats
  have hb1 : buildCatalogs s1 opts true = .ok (cats, pm) := by
    rw [buildCatalogs_inv s s1 opts hpi hpk]
    exact hb
  have hdel1 : catalogDeletionList s1 cats = [] :=
    catalogDeletionList_run_empty s cats s1 hs hkeys hcase2
  have hfacts : ∀ e ∈ cats, contentAt s1 (catPath e.1) (serializeCatalog e.2) := by
    rcases hcase2 with h | ⟨bytes, h⟩
    · intro e he
      rw [h]
      exact writeFold_contentAt cats hnp _ e he
    · intro e he
      rw [h]
      exact putBlob_preserves_contentAt _ _ _ _ _
        (catPath_ne_manifest e.1 (hkeys e he))
        (writeFold_contentAt cats hnp _ e he)
  have hwid : writeFold s1 cats = s1 := writeFold_id cats s1 hfacts
  have hwl : writeLoop true s1 cats = .ok (s1, []) := by
    rw [writeLoop_of_keysStr cats s1 hkeys, hwid]
  refine ⟨?_, ?_⟩
  · simp only [makecatalogs, hic, hb1, hdel1, deleteLoop, hwl]
    rcases hcase with ⟨hie, hs1⟩ | ⟨hie, bytes, hsi, hs1⟩
    · simp only [hie, if_true]
      rw [he1]
    · have hman : contentAt s1 "icons/_icon_hashes.plist" bytes := by
        rw [hs1]
        exact putBlob_sets _ _ _
      simp only [hie, Bool.false_eq_true, if_false, hsi,
        putBlob_id s1 _ bytes hman, Bool.true_eq_false]
      rw [he1]
  · intro cats2 pm2 hb2
    rw [hb1] at hb2
    have hcc := Except.ok.inj hb2
    have : cats = cats2 := congrArg Prod.fst hcc
    rw [← this]
    exact hdel1

/-- Witness for C9: a store with one `nopkg` record declaring catalog
`testing`; the second run over the first run's output store is the
identity and deletes nothing. -/
theorem claim9_idempotent_build_witness :
    makecatalogs (Store.mk
        [("pkgsinfo/a.plist", BlobContent.ok (Bytes.plist (PValue.dict
          [("name", PValue.str "A"), ("installer_type", PValue.str "nopkg"),
           ("catalogs", PValue.list [PValue.str "testing"])]))),
         ("catalogs/all", BlobContent.ok (serializeCatalog
          [[("name", PValue.str "A"), ("installer_type", PValue.str "nopkg"),
            ("catalogs", PValue.list [PValue.str "testing"])]])),
         ("catalogs/testing", BlobContent.ok (serializeCatalog
          [[("name", PValue.str "A"), ("installer_type", PValue.str "nopkg"),
            ("catalogs", PValue.list [PValue.str "testing"])]]))])
        ⟨false, false⟩ true =
      .ok (Store.mk
        [("pkgsinfo/a.plist", BlobContent.ok (Bytes.plist (PValue.dict
          [("name", PValue.str "A"), ("installer_type", PValue.str "nopkg"),
           ("catalogs", PValue.list [PValue.str "testing"])]))),
         ("catalogs/all", BlobContent.ok (serializeCatalog
          [[("name", PValue.str "A"), ("installer_type", PValue.str "nopkg"),
            ("catalogs", PValue.list [PValue.str "testing"])]])),
         ("catalogs/testing", BlobContent.ok (serializeCatalog
          [[("name", PValue.str "A"), ("installer_type", PValue.str "nopkg"),
            ("catalogs", PValue.list [PValue.str "testing"])]]))], []) ∧
    (∀ cats2 pm2, buildCatalogs (Store.mk
        [("pkgsinfo/a.plist", BlobContent.ok (Bytes.plist (PValue.dict
          [("name", PValue.str "A"), ("installer_type", PValue.str "nopkg"),
           ("catalogs", PValue.list [PValue.str "testing"])]))),
         ("catalogs/all", BlobContent.ok (serializeCatalog
          [[("name", PValue.str "A"), ("installer_type", PValue.str "nopkg"),
            ("catalogs", PValue.list [PValue.str "testing"])]])),
         ("catalogs/testing", BlobContent.ok (serializeCatalog
          [[("name", PValue.str "A"), ("installer_type", PValue.str "nopkg"),
            ("catalogs", PValue.list [PValue.str "testing"])]]))])
        ⟨false, false⟩ true = .ok (cats2, pm2) →
      catalogDeletionList (Store.mk
        [("pkgsinfo/a.plist", BlobContent.ok (Bytes.plist (PValue.dict
          [("name", PValue.str "A"), ("installer_type", PValue.str "nopkg"),
           ("catalogs", PValue.list [PValue.str "testing"])]))),
         ("catalogs/all", BlobContent.ok (serializeCatalog
          [[("name", PValue.str "A"), ("installer_type", PValue.str "nopkg"),
            ("catalogs", PValue.list [PValue.str "testing"])]])),
         ("catalogs/testing", BlobContent.ok (serializeCatalog
          [[("name", PValue.str "A"), ("installer_type", PValue.str "nopkg"),
            ("catalogs", PValue.list [PValue.str "testing"])]]))]) cats2 = []) :=
  claim9_idempotent_build
    (Store.mk
      [("pkgsinfo/a.plist", BlobContent.ok (Bytes.plist (PValue.dict
        [("name", PValue.str "A"), ("installer_type", PValue.str "nopkg"),
         ("catalogs", PValue.list [PValue.str "testing"])])))])
    ⟨false, false⟩
    (Store.mk
      [("pkgsinfo/a.plist", BlobContent.ok (Bytes.plist (PValue.dict
        [("name", PValue.str "A"), ("installer_type", PValue.str "nopkg"),
         ("catalogs", PValue.list [PValue.str "testing"])]))),
       ("catalogs/all", BlobContent.ok (serializeCatalog
        [[("name", PValue.str "A"), ("installer_type", PValue.str "nopkg"),
          ("catalogs", PValue.list [PValue.str "testing"])]])),
       ("catalogs/testing", BlobContent.ok (serializeCatalog
        [[("name", PValue.str "A"), ("installer_type", PValue.str "nopkg"),
          ("catalogs", PValue.list [PValue.str "testing"])]]))])
    []
    (by
      intro m hm hpre
      rw [List.mem_singleton.mp hm] at hpre
      exact absurd hpre (by decide))
    (by rfl)

theorem catMember_addToCatalogs (ref : String) (d : PkgInfo) :
    ∀ (names : List PValue) (cats : Catalogs) (k : PValue),
    catMember cats k = true →
    catMember (addToCatalogs ref d names cats).1 k = true := by
  intro names
  induction names with
  | nil => intro cats k h; exact h
  | cons v vs ih =>
    intro cats k h
    cases ht : truthy v with
    | false =>
      simp only [addToCatalogs, ht, Bool.not_false, if_true]
      exact ih cats k h
    | true =>
      simp only [addToCatalogs, ht, Bool.not_true, Bool.false_eq_true, if_false]
      exact ih (catAdd cats v d) k (catMember_catAdd cats v k d h)

theorem allRecords_mono_addToCatalogs (ref : String) (d : PkgInfo) :
    ∀ (names : List PValue) (cats : Catalogs) (x : PkgInfo),
    x ∈ allRecords cats →
    x ∈ allRecords (addToCatalogs ref d names cats).1 := by
  intro names
  induction names with
  | nil => intro cats x h; exact h
  | cons v vs ih =>
    intro cats x h
    cases ht : truthy v with
    | false =>
      simp only [addToCatalogs, ht, Bool.not_false, if_true]
      exact ih cats x h
    | true =>
      simp only [addToCatalogs, ht, Bool.not_true, Bool.false_eq_true, if_false]
      exact ih (catAdd cats v d) x (allRecords_mono_catAdd cats v d x h)

/-- One included record preserves `all` membership and the `all` key, and
lands itself in `all` - with no assumption on its declared catalogs. -/
theorem procRecord_preserve (output : Bool) (ref : String) (d : PkgInfo)
    (cats c2 : Catalogs) (m : List String)
    (h : procRecord output ref d cats = .ok (c2, m)) :
    (∀ x, x ∈ allRecords cats → x ∈ allRecords c2) ∧
    (catMember cats (PValue.str "all") = true →
      catMember c2 (PValue.str "all") = true) ∧
    (catMember cats (PValue.str "all") = true → d ∈ allRecords c2) := by
  cases output with
  | false => simp [procRecord] at h
  | true =>
    simp only [procRecord, Bool.true_eq_false, if_false] at h
    cases hit : pyIter (lookupKey d "catalogs") with
    | error e => simp only [hit] at h; exact absurd h (by simp)
    | ok names =>
      simp only [hit] at h
      cases hsc : scanDup ((addToCatalogs ref d names
          (catAppend cats (PValue.str "all") d)).1.map (fun e => e.1)) with
      | error e => simp only [hsc] at h; exact absurd h (by simp)
      | ok dups =>
        simp only [hsc] at h
        have hc2 : c2 = (addToCatalogs ref d names
            (catAppend cats (PValue.str "all") d)).1 := by
          have := congrArg (fun x => match x with
            | Except.ok (c, _) => c
            | _ => ([] : Catalogs)) h
          simpa using this.symm
        subst hc2
        refine ⟨?_, ?_, ?_⟩
        · intro x hx
          exact allRecords_mono_addToCatalogs ref d names _ x
            (allRecords_mono_catAppend cats (PValue.str "all") d x hx)
        · intro hall
          apply catMember_addToCatalogs
          rw [catMember_catAppend]
          exact hall
        · intro hall
          apply allRecords_mono_addToCatalogs
          rw [allRecords_catAppend]
          simp only [hall, and_true, if_pos rfl]
          exact List.mem_append_right _ (List.mem_singleton.mpr rfl)

/-- One step of the main loop (any options, live sink) preserves `all`
membership and the `all` key. -/
theorem procHead_preserve (opts : Options) (pl : List String) (t : PTuple)
    (cats c2 : Catalogs) (m : List String)
    (h : procHead opts true pl t cats = .ok (c2, m)) :
    (∀ x, x ∈ allRecords cats → x ∈ allRecords c2) ∧
    (catMember cats (PValue.str "all") = true →
      catMember c2 (PValue.str "all") = true) := by
  obtain ⟨r?, p?, e?⟩ := t
  cases p? with
  | none =>
    simp only [procHead] at h
    have hc : c2 = cats := by
      have := congrArg (fun x => match x with
        | Except.ok (c, _) => c
        | _ => ([] : Catalogs)) h
      simpa using this.symm
    rw [hc]; exact ⟨fun x hx => hx, fun hh => hh⟩
  | some d =>
    cases hde : d.isEmpty with
    | true =>
      simp only [procHead, hde, if_true] at h
      have hc : c2 = cats := by
        have := congrArg (fun x => match x with
          | Except.ok (c, _) => c
          | _ => ([] : Catalogs)) h
        simpa using this.symm
      rw [hc]; exact ⟨fun x hx => hx, fun hh => hh⟩
    | false =>
      simp only [procHead, hde, Bool.false_eq_true, if_false] at h
      cases hsk : opts.skip_payload_check with
      | true =>
        simp only [hsk, if_true] at h
        cases hpr : procRecord true ((r?).getD "") d cats with
        | error e => simp only [hpr] at h; exact absurd h (by simp)
        | ok r =>
          simp only [hpr] at h
          have hc : c2 = r.1 := by
            have := congrArg (fun x => match x with
              | Except.ok (c, _) => c
              | _ => ([] : Catalogs)) h
            simpa using this.symm
          rw [hc]
          obtain ⟨hm, hk, _⟩ := procRecord_preserve true _ d cats r.1 r.2 (by rw [hpr])
          exact ⟨hm, hk⟩
      | false =>
        simp only [hsk, Bool.false_eq_true, if_false, Bool.true_eq_false] at h
        cases hcond : (!(verify_pkginfo ((r?).getD "") d pl).1 && !opts.force) with
        | true =>
          simp only [hcond, if_true] at h
          have hc : c2 = cats := by
            have := congrArg (fun x => match x with
              | Except.ok (c, _) => c
              | _ => ([] : Catalogs)) h
            simpa using this.symm
          rw [hc]; exact ⟨fun x hx => hx, fun hh => hh⟩
        | false =>
          simp only [hcond, Bool.false_eq_true, if_false] at h
          cases hpr : procRecord true ((r?).getD "") d cats with
          | error e => simp only [hpr] at h; exact absurd h (by simp)
          | ok r =>
            simp only [hpr] at h
            have hc : c2 = r.1 := by
              have := congrArg (fun x => match x with
                | Except.ok (c, _) => c
                | _ => ([] : Catalogs)) h
              simpa using this.symm
            rw [hc]
            obtain ⟨hm, hk, _⟩ := procRecord_preserve true _ d cats r.1 r.2 (by rw [hpr])
            exact ⟨hm, hk⟩

/-- With `force` on, a truthy record's loop step puts it into `all`, no
matter what catalogs it declares. -/
theorem procHead_force_includes (pl : List String) (ref : String) (d : PkgInfo)
    (err? : Option String) (cats c2 : Catalogs) (m : List String)
    (hd : d.isEmpty = false)
    (hall : catMember cats (PValue.str "all") = true)
    (h : procHead ⟨false, true⟩ true pl (some ref, some d, err?) cats = .ok (c2, m)) :
    d ∈ allRecords c2 := by
  simp only [procHead, hd, Bool.false_eq_true, if_false, Bool.true_eq_false,
    Bool.not_true, Bool.and_false, Option.getD_some] at h
  cases hpr : procRecord true ref d cats with
  | error e => simp only [hpr] at h; exact absurd h (by simp)
  | ok r =>
    simp only [hpr] at h
    have hc : c2 = r.1 := by
      have := congrArg (fun x => match x with
        | Except.ok (c, _) => c
        | _ => ([] : Catalogs)) h
      simpa using this.symm
    rw [hc]
    exact (procRecord_preserve true ref d cats r.1 r.2 (by rw [hpr])).2.2 hall

theorem procLoop_preserve (opts : Options) (pl : List String) :
    ∀ (tuples : List PTuple) (cats cf : Catalogs) (m : List String),
    procLoop opts true pl tuples cats = .ok (cf, m) →
    (∀ x, x ∈ allRecords cats → x ∈ allRecords cf) ∧
    (catMember cats (PValue.str "all") = true →
      catMember cf (PValue.str "all") = true) := by
  intro tuples
  induction tuples with
  | nil =>
    intro cats cf m h
    simp only [procLoop] at h
    have hc : cf = cats := by
      have := congrArg (fun x => match x with
        | Except.ok (c, _) => c
        | _ => ([] : Catalogs)) h
      simpa using this.symm
    rw [hc]; exact ⟨fun x hx => hx, fun hh => hh⟩
  | cons t rest ih =>
    intro cats cf m h
    simp only [procLoop] at h
    cases hh : procHead opts true pl t cats with
    | error e => simp only [hh] at h; exact absurd h (by simp)
    | ok r =>
      simp only [hh] at h
      cases hrest : procLoop opts true pl rest r.1 with
      | error e => simp only [hrest] at h; exact absurd h (by simp)
      | ok rr =>
        simp only [hrest] at h
        have hc : cf = rr.1 := by
          have := congrArg (fun x => match x with
            | Except.ok (c, _) => c
            | _ => ([] : Catalogs)) h
          simpa using this.symm
        rw [hc]
        obtain ⟨hm1, hk1⟩ := procHead_preserve opts pl t cats r.1 r.2 (by rw [hh])
        obtain ⟨hm2, hk2⟩ := ih r.1 rr.1 rr.2 (by rw [hrest])
        exact ⟨fun x hx => hm2 x (hm1 x hx), fun hh2 => hk2 (hk1 hh2)⟩

/-- With `force` on, every successful aggregation that processed a truthy
record leaves that record in catalog `all`, regardless of its declared
catalog memberships. -/
theorem procLoop_force_includes (pl : List String) (ref : String) (d : PkgInfo)
    (err? : Option String) (hd : d.isEmpty = false) :
    ∀ (tuples : List PTuple) (cats cf : Catalogs) (msgs : List String),
    catMember cats (PValue.str "all") = true →
    procLoop ⟨false, true⟩ true pl tuples cats = .ok (cf, msgs) →
    (some ref, some d, err?) ∈ tuples →
    d ∈ allRecords cf := by
  intro tuples
  induction tuples with
  | nil =>
    intro cats cf msgs _ _ hmem
    exact absurd hmem (List.not_mem_nil _)
  | cons t rest ih =>
    intro cats cf msgs hall h hmem
    simp only [procLoop] at h
    cases hh : procHead ⟨false, true⟩ true pl t cats with
    | error e => simp only [hh] at h; exact absurd h (by simp)
    | ok r =>
      simp only [hh] at h
      cases hrest : procLoop ⟨false, true⟩ true pl rest r.1 with
      | error e => simp only [hrest] at h; exact absurd h (by simp)
      | ok rr =>
        simp only [hrest] at h
        have hc : cf = rr.1 := by
          have := congrArg (fun x => match x with
            | Except.ok (c, _) => c
            | _ => ([] : Catalogs)) h
          simpa using this.symm
        rw [hc]
        rcases List.mem_cons.mp hmem with h1 | h1
        · have hin : d ∈ allRecords r.1 :=
            procHead_force_includes pl ref d err? cats r.1 r.2 hd hall
              (by rw [← h1] at hh; rw [hh])
          exact (procLoop_preserve ⟨false, true⟩ pl rest r.1 rr.1 rr.2
            (by rw [hrest])).1 d hin
        · exact ih r.1 rr.1 rr.2
            ((procHead_preserve ⟨false, true⟩ pl t cats r.1 r.2 (by rw [hh])).2 hall)
            (by rw [hrest]) h1

/-- C5.  A record whose declared installer path is absent from the
known-payload set both exactly and case-insensitively (no external URL,
non-exempt installer type) fails verification with the missing-installer
warning; processing it adds it to no catalog when `force` is false, and
with `force` true every successful aggregation (from the build's initial
all-only state) that processed the record - whatever catalogs it declares -
includes it in catalog `all`. -/
theorem claim5_missing_installer_excluded
    (ref : String) (d : PkgInfo) (pl : List String) (loc : String)
    (h1 : isStrIn (lookupKey d "installer_type") exemptTypes = false)
    (h2 : truthyOpt (lookupKey d "PackageCompleteURL") = false)
    (h3 : truthyOpt (lookupKey d "PackageURL") = false)
    (h4 : lookupKey d "installer_item_location" = some (PValue.str loc))
    (h5 : pl.contains loc = false)
    (h6 : pl.find? (fun q => pyLower loc == pyLower q) = none)
    (hd : d.isEmpty = false)
    (rest : List PTuple) (cats : Catalogs) :
    verify_pkginfo ref d pl = (false, [msgMissingInstallerItem ref loc]) ∧
    procLoop ⟨false, false⟩ true pl ((some ref, some d, none) :: rest) cats =
      (procLoop ⟨false, false⟩ true pl rest cats).map
        (fun r => (r.1, msgMissingInstallerItem ref loc :: r.2)) ∧
    (∀ (err? : Option String) (tuples : List PTuple) (cf : Catalogs) (msgs : List String),
      (some ref, some d, err?) ∈ tuples →
      procLoop ⟨false, true⟩ true pl tuples [(PValue.str "all", [])] = .ok (cf, msgs) →
      d ∈ allRecords cf) := by
  have hv : verify_pkginfo ref d pl = (false, [msgMissingInstallerItem ref loc]) := by
    simp only [verify_pkginfo, h1, h2, h3, h4, h5, h6, Bool.or_self,
      Bool.false_eq_true, if_false]
  refine ⟨hv, ?_, ?_⟩
  · have hh : procHead ⟨false, false⟩ true pl (some ref, some d, none) cats =
        .ok (cats, [msgMissingInstallerItem ref loc]) := by
      simp only [procHead, errMsgList, hd, hv, Option.getD_some, Bool.not_false,
        Bool.and_self, if_true, Bool.false_eq_true, if_false, ite_false,
        List.nil_append]
      rfl
    cases hrest : procLoop ⟨false, false⟩ true pl rest cats with
    | error e =>
      simp only [procLoop, hh, hrest]
      rfl
    | ok rr =>
      simp only [procLoop, hh, hrest]
      rfl
  · intro err? tuples cf msgs hmem hrun
    exact procLoop_force_includes pl ref d err? hd tuples
      [(PValue.str "all", [])] cf msgs (by decide) hrun hmem

/-- Witness for C5: a record with payload `a.pkg` absent from an empty
payload list and declaring catalog `prod`; it is skipped without touching
the catalogs when not forced, and the forced single-record build puts it
into `all`. -/
theorem claim5_missing_installer_excluded_witness :
    verify_pkginfo "x.plist"
        [("name", PValue.str "X"), ("installer_item_location", PValue.str "a.pkg"),
         ("catalogs", PValue.list [PValue.str "prod"])] [] =
      (false, [msgMissingInstallerItem "x.plist" "a.pkg"]) ∧
    procLoop ⟨false, false⟩ true []
        [(some "x.plist",
          some [("name", PValue.str "X"), ("installer_item_location", PValue.str "a.pkg"),
            ("catalogs", PValue.list [PValue.str "prod"])],
          none)] [(PValue.str "all", [])] =
      (procLoop ⟨false, false⟩ true [] [] [(PValue.str "all", [])]).map
        (fun r => (r.1, msgMissingInstallerItem "x.plist" "a.pkg" :: r.2)) ∧
    (∀ (err? : Option String) (tuples : List PTuple) (cf : Catalogs) (msgs : List String),
      (some "x.plist",
        some [("name", PValue.str "X"), ("installer_item_location", PValue.str "a.pkg"),
          ("catalogs", PValue.list [PValue.str "prod"])],
        err?) ∈ tuples →
      procLoop ⟨false, true⟩ true [] tuples [(PValue.str "all", [])] = .ok (cf, msgs) →
      [("name", PValue.str "X"), ("installer_item_location", PValue.str "a.pkg"),
        ("catalogs", PValue.list [PValue.str "prod"])] ∈ allRecords cf) :=
  claim5_missing_installer_excluded "x.plist"
    [("name", PValue.str "X"), ("installer_item_location", PValue.str "a.pkg"),
     ("catalogs", PValue.list [PValue.str "prod"])]
    [] "a.pkg" (by rfl) (by rfl) (by rfl) (by rfl) (by rfl) (by rfl) (by rfl)
    [] [(PValue.str "all", [])]
